import Mathlib

/-! Command-line parsing and subcommand dispatch (`cli/cli.go`).

A shallow embedding of the `cli` package: option records live in a heap and are
reached through pointers, registries (`map[string]*Option`) live in a second
heap and are reached through map references, because the dispatcher mutates
option records in place and writes child entries into the very map it was
handed.  Commands are immutable during dispatch and are embedded by value.

Strings are sequences of symbols; `-` and `=` are single symbols, so the byte
oriented functions of Go's `strings` package used by the code act on the symbol
list exactly as they act on the bytes.
-/

namespace GoCli

/-! ## The functions of Go's `strings` package used by `cli.go` -/

namespace Strings

/-- Go `strings.HasPrefix(s, pre)`. -/
def HasPrefix (s pre : String) : Bool := pre.data.isPrefixOf s.data

/-- Go `strings.Count(s, "=")`: the number of `=` in `s`. -/
def Count (s : String) : Nat := s.data.count '='

/-- Go `strings.SplitN(s, "=", 2)`: `[s]` when `s` holds no `=`, otherwise the
text before the first `=` and the text after it. -/
def SplitN2 (s : String) : List String :=
  if '=' ∈ s.data then
    [String.mk (s.data.takeWhile (fun c => c != '=')),
     String.mk ((s.data.dropWhile (fun c => c != '=')).tail)]
  else [s]

/-- Go slice expression `s[n:]`. -/
def sliceFrom (n : Nat) (s : String) : String := String.mk (s.data.drop n)

end Strings

/-! ## Constants -/

/-- Go constant `OptConfigName`. -/
def OptConfigName : String := "config"

/-- Go constant `OptConfigAlias`. -/
def OptConfigAlias : String := "c"

/-- Go constant `OptConfigDesc`. -/
def OptConfigDesc : String :=
  "Specify the configuration file to use. Supported formats: JSON, YAML, TOML."

/-- Go constant `OptHelpName`. -/
def OptHelpName : String := "help"

/-- Go constant `OptHelpAlias`. -/
def OptHelpAlias : String := "h"

/-- Go constant `OptVersionName`. -/
def OptVersionName : String := "version"

/-- Go constant `OptVersionAlias`. -/
def OptVersionAlias : String := "v"

/-! ## Data model -/

/-- Address of an `Option` record (`*Option`, never nil inside a registry). -/
abbrev Ptr := Nat

/-- Reference to a `map[string]*Option`. -/
abbrev MapRef := Nat

/-- Identity of a `CommandFunc` callback. -/
abbrev ActionId := Nat

/-- Go `type Option struct`. -/
structure CliOption where
  Alias : String
  Value : String
  Description : String
  HasValue : Bool
  IsFlagSet : Bool
deriving DecidableEq, Repr

/-- The contents of a `map[string]*Option`: its entries, in the order in which
one traversal (`for k, v := range m`) visits them.  The first entry with a
given key is the binding of that key. -/
abbrev Registry := List (String × Ptr)

/-- Go map read `m[k]`. -/
def Registry.get? (m : Registry) (k : String) : Option Ptr :=
  (m.find? (fun e => e.1 == k)).map (fun e => e.2)

/-- Go map write `m[k] = p`: the binding of `k` is replaced where it stands,
a new key is added. -/
def Registry.insert : Registry → String → Ptr → Registry
  | [], k, p => [(k, p)]
  | e :: m, k, p => if e.1 == k then (k, p) :: m else e :: Registry.insert m k p

/-- Go `type Command struct`.  `Action` is `none` for a nil callback, `Options`
is the reference of the node's registry. -/
inductive Command where
  | mk (Action : Option ActionId) (Commands : List Command) (Name : String)
      (Usage : String) (Options : MapRef)

/-- Field `Action`. -/
def Command.Action : Command → Option ActionId
  | .mk a _ _ _ _ => a

/-- Field `Commands`. -/
def Command.Commands : Command → List Command
  | .mk _ cs _ _ _ => cs

/-- Field `Name`. -/
def Command.Name : Command → String
  | .mk _ _ n _ _ => n

/-- Field `Usage`. -/
def Command.Usage : Command → String
  | .mk _ _ _ u _ => u

/-- Field `Options`. -/
def Command.Options : Command → MapRef
  | .mk _ _ _ _ o => o

/-- Go `type Cli struct`. -/
structure Cli where
  Command : Command
  Version : String
  execName : String

/-- The mutable store: option records by address, registries by reference. -/
structure State where
  opts : Ptr → CliOption
  maps : MapRef → Registry

/-- What a dispatch does to the outside world, in order. -/
inductive Event where
  | print (s : String)
  | call (action : ActionId) (options : MapRef)
deriving DecidableEq, Repr

/-- Assignment `p.Value = v`. -/
def State.setValue (st : State) (p : Ptr) (v : String) : State :=
  { st with opts := Function.update st.opts p { st.opts p with Value := v } }

/-- Assignment `p.IsFlagSet = true`. -/
def State.setFlag (st : State) (p : Ptr) : State :=
  { st with opts := Function.update st.opts p { st.opts p with IsFlagSet := true } }

/-- Assignment `m[k] = p` on the map behind reference `m`. -/
def State.mapInsert (st : State) (m : MapRef) (k : String) (p : Ptr) : State :=
  { st with maps := Function.update st.maps m ((st.maps m).insert k p) }

/-! ## Operations -/

/-- Go `getOptionByArgument(arg, options)`; `none` is the nil result. -/
def getOptionByArgument (arg : String) (options : Registry) (opts : Ptr → CliOption) :
    Option Ptr :=
  if Strings.HasPrefix arg "--" then
    let optionName := (Strings.SplitN2 (Strings.sliceFrom 2 arg)).headD ""
    if optionName = "" then none
    else (options.find? (fun e => e.1 == optionName)).map (fun e => e.2)
  else if Strings.HasPrefix arg "-" then
    let optionName := (Strings.SplitN2 (Strings.sliceFrom 1 arg)).headD ""
    if optionName = "" then none
    else (options.find? (fun e => (opts e.2).Alias == optionName)).map (fun e => e.2)
  else none

/-- Go `isHelpFlagSet(args)`. -/
def isHelpFlagSet (args : List String) : Bool :=
  args.any (fun arg => arg == "--" ++ OptHelpName || arg == "-" ++ OptHelpAlias)

/-- Go `isVersionFlagSet(args)`. -/
def isVersionFlagSet (args : List String) : Bool :=
  args.any (fun arg => arg == "--" ++ OptVersionName || arg == "-" ++ OptVersionAlias)

/-- The bracket group `showUsage` writes for one registry entry. -/
def usageOption (optionName : String) (option : CliOption) : String :=
  if optionName ≠ "" ∧ option.Alias ≠ "" then
    " [--" ++ optionName ++ "|-" ++ option.Alias ++ "]"
  else if optionName ≠ "" then " [--" ++ optionName ++ "]"
  else if option.Alias ≠ "" then " [-" ++ option.Alias ++ "]"
  else ""

/-- The text `showUsage` hands to `fmt.Println`. -/
def usageText (cmd : Command) (st : State) : String :=
  let usage := "Usage: " ++ cmd.Name
  let usage := (st.maps cmd.Options).foldl
    (fun u e => u ++ usageOption e.1 (st.opts e.2)) usage
  if cmd.Commands.length > 0 then
    let commandNames := (cmd.Commands.filter (fun c => c.Name != "")).map (fun c => c.Name)
    usage ++ " [" ++ ("|".intercalate commandNames ++ "]")
  else usage

/-- Go `(*Command).showUsage`: one `Println`. -/
def showUsage (cmd : Command) (st : State) : List Event :=
  [Event.print (usageText cmd st ++ "\n")]

/-- The option migration of `run`: every entry of the child's registry is
written into the map behind `options`. -/
def migrate (st : State) (options : MapRef) (sub : MapRef) : State :=
  (st.maps sub).foldl (fun s e => s.mapInsert options e.1 e.2) st

/-- Go `(*Command).run(options, args)`.  The loop index is the list of tokens
still to be visited. -/
def run (cmd : Command) (options : MapRef) : List String → State → State × List Event
  | [], st =>
    match cmd.Action with
    | some action => (st, [Event.call action options])
    | none => (st, showUsage cmd st)
  | arg :: rest, st =>
    if Strings.HasPrefix arg "--" || Strings.HasPrefix arg "-" then
      match getOptionByArgument arg (st.maps cmd.Options) st.opts with
      | none => (st, Event.print ("Unknown option: " ++ arg ++ "\n\n") :: showUsage cmd st)
      | some foundOption =>
        if (st.opts foundOption).HasValue then
          if Strings.Count arg = 1 then
            let parts := Strings.SplitN2 arg
            if parts.length = 2 then
              run cmd options rest (st.setValue foundOption (parts.getD 1 ""))
            else run cmd options rest st
          else
            match rest with
            | [] => run cmd options [] st
            | next :: rest2 =>
              if !Strings.HasPrefix next "-" then
                run cmd options rest2 (st.setValue foundOption next)
              else run cmd options rest2 st
        else run cmd options rest (st.setFlag foundOption)
    else
      match cmd.Commands.find? (fun subCommand => subCommand.Name == arg) with
      | some subCommand =>
        run subCommand options rest (migrate st options subCommand.Options)
      | none =>
        (st, Event.print ("Unknown sub command: " ++ arg ++ "\n\n") :: showUsage cmd st)

/-- Go `(*Cli).Run` on the argument vector `os.Args[1:]`; `none` is the panic
of calling a nil `Action`. -/
def Cli.Run (cli : Cli) (args : List String) (st : State) : Option (State × List Event) :=
  if args.length = 0 then
    match cli.Command.Action with
    | some action => some (st, [Event.call action cli.Command.Options])
    | none => none
  else if isHelpFlagSet args then some (st, showUsage cli.Command st)
  else
    let version :=
      if isVersionFlagSet args then [Event.print ("Version: " ++ cli.Version ++ "\n")] else []
    let r := run cli.Command cli.Command.Options args st
    some (r.1, version ++ r.2)

/-! ## Vocabulary of the properties -/

/-- The token `tok` spells the option record `p` of the registry `reg`: it is
`--name` for the non-empty, `=`-free name under which `p` is registered, or it
is `-alias` for the non-empty, `=`-free alias of `p` that does not itself start
with a dash, `p` being an entry of `reg` and the only one with that alias. -/
def Spells (reg : Registry) (opts : Ptr → CliOption) (p : Ptr) (tok : String) : Prop :=
  (∃ name : String, tok = "--" ++ name ∧ name ≠ "" ∧ '=' ∉ name.data ∧
      reg.get? name = some p) ∨
  (∃ short : String, tok = "-" ++ short ∧ short ≠ "" ∧ '=' ∉ short.data ∧
      Strings.HasPrefix short "-" = false ∧ (opts p).Alias = short ∧
      (∃ k, (k, p) ∈ reg) ∧ ∀ e ∈ reg, (opts e.2).Alias = short → e.2 = p)

/-- The store in which the loop of `run` at `cmd` leaves the option records when
it walks through all of `args` without returning early: every token resolves to
an option of the node or is taken by the token before it.  `none` when the loop
meets an unknown option or a positional token. -/
def optionPass (cmd : Command) : List String → State → Option State
  | [], st => some st
  | arg :: rest, st =>
    if Strings.HasPrefix arg "--" || Strings.HasPrefix arg "-" then
      match getOptionByArgument arg (st.maps cmd.Options) st.opts with
      | none => none
      | some foundOption =>
        if (st.opts foundOption).HasValue then
          if Strings.Count arg = 1 then
            let parts := Strings.SplitN2 arg
            if parts.length = 2 then
              optionPass cmd rest (st.setValue foundOption (parts.getD 1 ""))
            else optionPass cmd rest st
          else
            match rest with
            | [] => some st
            | next :: rest2 =>
              if !Strings.HasPrefix next "-" then
                optionPass cmd rest2 (st.setValue foundOption next)
              else optionPass cmd rest2 st
        else optionPass cmd rest (st.setFlag foundOption)
    else none

/-- Membership in a command tree: `Within c d` when `d` is `c` or one of its
descendants. -/
inductive Within : Command → Command → Prop where
  | self (c : Command) : Within c c
  | child {c sub d : Command} : sub ∈ c.Commands → Within sub d → Within c d

/-- No node of the tree under `cmd` registers the name `name` or the record `p`. -/
def Untouched (st : State) (cmd : Command) (name : String) (p : Ptr) : Prop :=
  ∀ c, Within cmd c →
    (st.maps c.Options).get? name = none ∧ ∀ e ∈ st.maps c.Options, e.2 ≠ p

/-! ## The command tree of `example/main.go` -/

/-- The store after the registrations of `example/main.go`.  Option records:
0 `help`, 1 `version`, 2 `config`, 3 `local`, 4 `url`.  Registries: 0 root,
1 `list`, 2 `push`, 3 `origin`. -/
def exampleState : State where
  opts := fun p =>
    match p with
    | 0 => ⟨OptHelpAlias, "", "", false, false⟩
    | 1 => ⟨OptVersionAlias, "", "", false, false⟩
    | 2 => ⟨OptConfigAlias, "", OptConfigDesc, true, false⟩
    | 3 => ⟨"l", "", "", false, false⟩
    | 4 => ⟨"u", "https://exmaple.com", "", true, false⟩
    | _ => ⟨"", "", "", false, false⟩
  maps := fun m =>
    match m with
    | 0 => [(OptHelpName, 0), (OptVersionName, 1), (OptConfigName, 2)]
    | 1 => [("local", 3)]
    | 3 => [("url", 4)]
    | _ => []

/-- The `push > origin` command, action `pushOringFunc` (callback 2). -/
def exampleOrigin : Command :=
  .mk (some 2) [] "origin" "Push the source code to the origin." 3

/-- The `push` command, no action. -/
def examplePush : Command := .mk none [exampleOrigin] "push" "Push the source code." 2

/-- The `list` command, action `listFunc` (callback 1). -/
def exampleList : Command := .mk (some 1) [] "list" "List the configuration." 1

/-- The root command, action `mainFunc` (callback 0). -/
def exampleRoot : Command := .mk (some 0) [exampleList, examplePush] "example" "" 0

/-- The `Cli` of `example/main.go` after `SetVersion("1.0.0")`. -/
def exampleCli : Cli := ⟨exampleRoot, "1.0.0", ""⟩

/-- The store of `example/main.go` with every registry iterated from the
`k`-th registered entry on and around to the entries before it, the way a Go
`range` over a small map starts at an offset of its choice: the same
records and the same entries as `exampleState`. -/
def exampleRotated (k : Nat) : State :=
  ⟨exampleState.opts, fun m => (exampleState.maps m).rotate k⟩

/-! ## A node with a value option `a` and a flag `b` -/

/-- Option records 0 (`a`, takes a value) and 1 (`b`, flag) in registry 0. -/
def abState : State where
  opts := fun p =>
    match p with
    | 0 => ⟨"a", "", "", true, false⟩
    | 1 => ⟨"b", "", "", false, false⟩
    | _ => ⟨"", "", "", false, false⟩
  maps := fun m =>
    match m with
    | 0 => [("a", 0), ("b", 1)]
    | _ => []

/-- A command with action (callback 0) whose registry is map 0. -/
def abRoot : Command := .mk (some 0) [] "app" "" 0

/-! ## A parent and a child that register the same option name -/

/-- Option records 0 (flag `x` of the parent) and 1 (flag `x` of the child);
registry 0 is the parent's, registry 1 the child's. -/
def shadowState : State where
  opts := fun p =>
    match p with
    | 0 => ⟨"x", "", "", false, false⟩
    | 1 => ⟨"y", "", "", false, false⟩
    | _ => ⟨"", "", "", false, false⟩
  maps := fun m =>
    match m with
    | 0 => [("x", 0)]
    | 1 => [("x", 1)]
    | _ => []

/-- The child `sub`, with action (callback 1). -/
def shadowSub : Command := .mk (some 1) [] "sub" "" 1

/-- The parent, with action (callback 0). -/
def shadowRoot : Command := .mk (some 0) [shadowSub] "app" "" 0

/-! ## Construction of a command tree -/

/-- The store together with the allocator: the addresses from `freePtr` and
from `freeMap` on have not been handed out yet. -/
structure Alloc where
  store : State
  freePtr : Ptr
  freeMap : MapRef

/-- Go `&Option{...}`: a new record at a fresh address. -/
def Alloc.newOption (h : Alloc) (o : CliOption) : Ptr × Alloc :=
  (h.freePtr,
   { store := { h.store with opts := Function.update h.store.opts h.freePtr o },
     freePtr := h.freePtr + 1, freeMap := h.freeMap })

/-- Go `make(map[string]*Option)`: a new empty map behind a fresh reference. -/
def Alloc.makeMap (h : Alloc) : MapRef × Alloc :=
  (h.freeMap,
   { store := { h.store with maps := Function.update h.store.maps h.freeMap [] },
     freePtr := h.freePtr, freeMap := h.freeMap + 1 })

/-- Go `NewCli(defaultFunc)`; `base` stands for `filepath.Base(os.Args[0])`, and
`defaultFunc` is `none` for a nil callback. -/
def NewCli (defaultFunc : Option ActionId) (base : String) (h : Alloc) : Cli × Alloc :=
  let options := h.makeMap
  let help := options.2.newOption ⟨OptHelpAlias, "", "", false, false⟩
  let h1 : Alloc :=
    { help.2 with store := help.2.store.mapInsert options.1 OptHelpName help.1 }
  let version := h1.newOption ⟨OptVersionAlias, "", "", false, false⟩
  let h2 : Alloc :=
    { version.2 with store := version.2.store.mapInsert options.1 OptVersionName version.1 }
  (⟨Command.mk defaultFunc [] base "" options.1, "", ""⟩, h2)

/-- Go `NewCommand(name)`. -/
def NewCommand (name : String) (h : Alloc) : Command × Alloc :=
  let options := h.makeMap
  (Command.mk none [] name "" options.1, options.2)

/-- Go `(*Command).SetDefaultConfigOption`. -/
def Command.SetDefaultConfigOption (cmd : Command) (h : Alloc) : Alloc :=
  let config := h.newOption ⟨OptConfigAlias, "", OptConfigDesc, true, false⟩
  { config.2 with store := config.2.store.mapInsert cmd.Options OptConfigName config.1 }

/-- Go `(*Cli).SetVersion`. -/
def Cli.SetVersion (cli : Cli) (version : String) : Cli :=
  { cli with Version := version }

/-- A store in which nothing has been allocated. -/
def emptyAlloc : Alloc :=
  ⟨⟨fun _ => ⟨"", "", "", false, false⟩, fun _ => []⟩, 0, 0⟩

/-! ## Vocabulary of the properties, continued -/

/-- The text the dispatch itself writes to standard output (what the callbacks
write is theirs). -/
def stdout : List Event → String
  | [] => ""
  | Event.print s :: es => s ++ stdout es
  | Event.call _ _ :: es => stdout es

/-- The store `st2` is the store `st` seen with another iteration order of its
maps: same records, and in every registry the same entries. -/
def Reordered (st st2 : State) : Prop :=
  st2.opts = st.opts ∧ ∀ m, (st2.maps m).Perm (st.maps m)

/-- The node `c` is a strict descendant of `cmd`. -/
def Below (cmd c : Command) : Prop := ∃ sub ∈ cmd.Commands, Within sub c

/-- One step down a path: the record the node `c` registers under `name` in the
registries `maps`, and `found` when it registers none. -/
def overlay (maps : MapRef → Registry) (name : String) (found : Option Ptr) (c : Command) :
    Option Ptr :=
  match (maps c.Options).get? name with
  | some p => some p
  | none => found

/-- The record under which the deepest of `nodes` (the last one of the list)
that registers `name` holds it, if any of them registers it. -/
def deepest (st : State) (nodes : List Command) (name : String) : Option Ptr :=
  nodes.foldl (overlay st.maps name) none

/-- The candidate name or alias of an option token: the text after the first
`skip` symbols, up to the first `=`. -/
def candidate (skip : Nat) (tok : String) : String :=
  String.mk ((tok.data.drop skip).takeWhile (fun c => c != '='))

/-! ## The registry invariant and the frame of a dispatch -/

/-- No two entries of the registry share a name. -/
def NamesUnique (reg : Registry) : Prop := (reg.map Prod.fst).Nodup

/-- No two options of the registry share a non-empty alias: entries whose
records have the same non-empty alias hold the same record. -/
def AliasesUnique (reg : Registry) (opts : Ptr → CliOption) : Prop :=
  ∀ e1 ∈ reg, ∀ e2 ∈ reg, (opts e1.2).Alias ≠ "" →
    (opts e1.2).Alias = (opts e2.2).Alias → e1.2 = e2.2

/-- The registry invariant of the data model. -/
def RegistryInvariant (reg : Registry) (opts : Ptr → CliOption) : Prop :=
  NamesUnique reg ∧ AliasesUnique reg opts

/-- The entries a dispatch at `cmd` with the option set `options` can meet: those
of the set and those of the registries of `cmd` and its descendants. -/
def Pool (st : State) (options : MapRef) (cmd : Command) (e : String × Ptr) : Prop :=
  e ∈ st.maps options ∨ ∃ c, Within cmd c ∧ e ∈ st.maps c.Options

/-- The events with which a dispatch ends at the node `c`, in the store `st`,
the option set being `options`: the call of the node's action, or the node's
usage, alone or after one of the two failure lines. -/
def TerminalEffect (c : Command) (options : MapRef) (st : State) (events : List Event) :
    Prop :=
  (∃ action, c.Action = some action ∧ events = [Event.call action options]) ∨
  (c.Action = none ∧ events = [Event.print (usageText c st ++ "\n")]) ∨
  (∃ tok, events = [Event.print ("Unknown option: " ++ tok ++ "\n\n"),
      Event.print (usageText c st ++ "\n")]) ∨
  (∃ tok, events = [Event.print ("Unknown sub command: " ++ tok ++ "\n\n"),
      Event.print (usageText c st ++ "\n")])

/-! ## A root registry with an option `color` of alias `c` -/

/-- The store after `NewCli` (program `app`, callback 0) and the registration
`cli.Command.Options["color"] = &Option{Alias: "c", HasValue: true}`: records
0 `help`, 1 `version`, 2 `color`, all in registry 0. -/
def colorAlloc : Alloc :=
  let h := (NewCli (some 0) "app" emptyAlloc).2
  let color := h.newOption ⟨"c", "", "", true, false⟩
  { color.2 with store := color.2.store.mapInsert 0 "color" color.1 }

/-- The root command of that `Cli`. -/
def colorRoot : Command := (NewCli (some 0) "app" emptyAlloc).1.Command

/-! ## A child `serve` with an option `host` of alias `h` -/

/-- Records 0 `help` (alias `h`) and 1 `version` (alias `v`) in the root
registry 0, record 2 `host` (alias `h`, takes a value) in registry 1. -/
def hostState : State where
  opts := fun p =>
    match p with
    | 0 => ⟨OptHelpAlias, "", "", false, false⟩
    | 1 => ⟨OptVersionAlias, "", "", false, false⟩
    | 2 => ⟨"h", "", "", true, false⟩
    | _ => ⟨"", "", "", false, false⟩
  maps := fun m =>
    match m with
    | 0 => [(OptHelpName, 0), (OptVersionName, 1)]
    | 1 => [("host", 2)]
    | _ => []

/-- The child `serve`, with action (callback 1). -/
def hostServe : Command := .mk (some 1) [] "serve" "" 1

/-- The root, with action (callback 0). -/
def hostRoot : Command := .mk (some 0) [hostServe] "app" "" 0

/-! ## String facts -/

namespace Strings

theorem takeWhile_noEq (l r : List Char) (h : '=' ∉ l) :
    (l ++ '=' :: r).takeWhile (fun c => c != '=') = l := by
  induction l with
  | nil => simp
  | cons a l ih =>
    have ha : a ≠ '=' := fun e => h (by simp [e])
    have hl : '=' ∉ l := fun e => h (by simp [e])
    have hb : (a != '=') = true := by simp [ha]
    rw [List.cons_append, List.takeWhile_cons, hb, if_pos rfl, ih hl]

theorem dropWhile_noEq (l r : List Char) (h : '=' ∉ l) :
    (l ++ '=' :: r).dropWhile (fun c => c != '=') = '=' :: r := by
  induction l with
  | nil => simp
  | cons a l ih =>
    have ha : a ≠ '=' := fun e => h (by simp [e])
    have hl : '=' ∉ l := fun e => h (by simp [e])
    have hb : (a != '=') = true := by simp [ha]
    rw [List.cons_append, List.dropWhile_cons, hb, if_pos rfl, ih hl]

theorem hasPrefix_dash2 (s : String) : HasPrefix ("--" ++ s) "--" = true := by
  simp [HasPrefix, String.data_append]

theorem hasPrefix_dash1 (s : String) : HasPrefix ("-" ++ s) "-" = true := by
  simp [HasPrefix, String.data_append]

theorem hasPrefix_dash12 (s : String) (h : HasPrefix s "-" = false) :
    HasPrefix ("-" ++ s) "--" = false := by
  simp [HasPrefix, String.data_append] at *
  exact h

theorem splitN2_noEq (s : String) (h : '=' ∉ s.data) : SplitN2 s = [s] := by
  simp [SplitN2, h]

theorem splitN2_cut (a b : String) (h : '=' ∉ a.data) : SplitN2 (a ++ "=" ++ b) = [a, b] := by
  have hd : (a ++ "=" ++ b).data = a.data ++ '=' :: b.data := by
    simp [String.data_append]
  simp [SplitN2, hd, takeWhile_noEq _ _ h, dropWhile_noEq _ _ h]

theorem count_noEq (s : String) (h : '=' ∉ s.data) : Count s = 0 := by
  simp [Count, List.count_eq_zero, h]

end Strings

open Strings

/-! ## One iteration of the loop of `run` -/

theorem sliceFrom_dash2 (s : String) : sliceFrom 2 ("--" ++ s) = s := by
  apply String.ext; simp [sliceFrom, String.data_append]

theorem sliceFrom_dash1 (s : String) : sliceFrom 1 ("-" ++ s) = s := by
  apply String.ext; simp [sliceFrom, String.data_append]

theorem hasPrefix_one (s : String) : HasPrefix s "-" = ['-'].isPrefixOf s.data := rfl

theorem hasPrefix_two (s : String) : HasPrefix s "--" = ['-', '-'].isPrefixOf s.data := rfl

theorem dashOr (arg : String) :
    (HasPrefix arg "--" || HasPrefix arg "-") = HasPrefix arg "-" := by
  rw [hasPrefix_one, hasPrefix_two]
  rcases arg.data with _ | ⟨a, _ | ⟨b, l⟩⟩ <;> simp [List.isPrefixOf]
  intro h1 _; exact h1

theorem run_nil (cmd : Command) (options : MapRef) (st : State) :
    run cmd options [] st =
      match cmd.Action with
      | some action => (st, [Event.call action options])
      | none => (st, showUsage cmd st) := rfl

set_option smartUnfolding false in
theorem run_cons (cmd : Command) (options : MapRef) (st : State) (arg : String)
    (rest : List String) :
    run cmd options (arg :: rest) st =
    if Strings.HasPrefix arg "--" || Strings.HasPrefix arg "-" then
      match getOptionByArgument arg (st.maps cmd.Options) st.opts with
      | none => (st, Event.print ("Unknown option: " ++ arg ++ "\n\n") :: showUsage cmd st)
      | some foundOption =>
        if (st.opts foundOption).HasValue then
          if Strings.Count arg = 1 then
            let parts := Strings.SplitN2 arg
            if parts.length = 2 then
              run cmd options rest (st.setValue foundOption (parts.getD 1 ""))
            else run cmd options rest st
          else
            match rest with
            | [] => run cmd options [] st
            | next :: rest2 =>
              if !Strings.HasPrefix next "-" then
                run cmd options rest2 (st.setValue foundOption next)
              else run cmd options rest2 st
        else run cmd options rest (st.setFlag foundOption)
    else
      match cmd.Commands.find? (fun subCommand => subCommand.Name == arg) with
      | some subCommand =>
        run subCommand options rest (migrate st options subCommand.Options)
      | none =>
        (st, Event.print ("Unknown sub command: " ++ arg ++ "\n\n") :: showUsage cmd st) := by
  cases rest <;> rfl

theorem run_flag (cmd : Command) (options : MapRef) (st : State) (arg : String)
    (rest : List String) (p : Ptr) (hd : HasPrefix arg "-" = true)
    (hres : getOptionByArgument arg (st.maps cmd.Options) st.opts = some p)
    (hv : (st.opts p).HasValue = false) :
    run cmd options (arg :: rest) st = run cmd options rest (st.setFlag p) := by
  rw [run_cons, dashOr, hd]
  simp [hres, hv]

theorem run_value_next (cmd : Command) (options : MapRef) (st : State) (arg next : String)
    (rest : List String) (p : Ptr) (hd : HasPrefix arg "-" = true)
    (hres : getOptionByArgument arg (st.maps cmd.Options) st.opts = some p)
    (hv : (st.opts p).HasValue = true) (hc : Count arg ≠ 1) :
    run cmd options (arg :: next :: rest) st =
      if HasPrefix next "-" then run cmd options rest st
      else run cmd options rest (st.setValue p next) := by
  rw [run_cons, dashOr, hd]
  simp [hres, hv, hc]
  split <;> simp_all

theorem run_value_last (cmd : Command) (options : MapRef) (st : State) (arg : String)
    (p : Ptr) (hd : HasPrefix arg "-" = true)
    (hres : getOptionByArgument arg (st.maps cmd.Options) st.opts = some p)
    (hv : (st.opts p).HasValue = true) (hc : Count arg ≠ 1) :
    run cmd options [arg] st = run cmd options [] st := by
  rw [run_cons, dashOr, hd]
  simp [hres, hv, hc]

theorem splitN2_length (s : String) (h : Count s = 1) : (SplitN2 s).length = 2 := by
  have : '=' ∈ s.data := by
    unfold Count at h
    exact List.count_pos_iff.mp (by omega)
  simp [SplitN2, this]

theorem run_value_eq (cmd : Command) (options : MapRef) (st : State) (arg : String)
    (rest : List String) (p : Ptr) (hd : HasPrefix arg "-" = true)
    (hres : getOptionByArgument arg (st.maps cmd.Options) st.opts = some p)
    (hv : (st.opts p).HasValue = true) (hc : Count arg = 1) :
    run cmd options (arg :: rest) st =
      run cmd options rest (st.setValue p ((SplitN2 arg).getD 1 "")) := by
  rw [run_cons, dashOr, hd]
  simp [hres, hv, hc, splitN2_length arg hc]

theorem run_unknown_option (cmd : Command) (options : MapRef) (st : State) (arg : String)
    (rest : List String) (hd : HasPrefix arg "-" = true)
    (hres : getOptionByArgument arg (st.maps cmd.Options) st.opts = none) :
    run cmd options (arg :: rest) st =
      (st, Event.print ("Unknown option: " ++ arg ++ "\n\n") :: showUsage cmd st) := by
  rw [run_cons, dashOr, hd]
  simp [hres]

theorem run_enter (cmd sub : Command) (options : MapRef) (st : State) (arg : String)
    (rest : List String) (hd : HasPrefix arg "-" = false)
    (hsub : cmd.Commands.find? (fun c => c.Name == arg) = some sub) :
    run cmd options (arg :: rest) st = run sub options rest (migrate st options sub.Options) := by
  rw [run_cons, dashOr, hd]
  simp [hsub]

theorem run_unknown_sub (cmd : Command) (options : MapRef) (st : State) (arg : String)
    (rest : List String) (hd : HasPrefix arg "-" = false)
    (hsub : cmd.Commands.find? (fun c => c.Name == arg) = none) :
    run cmd options (arg :: rest) st =
      (st, Event.print ("Unknown sub command: " ++ arg ++ "\n\n") :: showUsage cmd st) := by
  rw [run_cons, dashOr, hd]
  simp [hsub]

theorem splitN2_head (name sfx : String) (heq : '=' ∉ name.data)
    (hs : sfx = "" ∨ ∃ v : String, sfx = "=" ++ v) :
    (SplitN2 (name ++ sfx)).headD "" = name := by
  rcases hs with rfl | ⟨v, rfl⟩
  · rw [String.append_empty, splitN2_noEq _ heq]; rfl
  · rw [← String.append_assoc, splitN2_cut _ _ heq]; rfl

theorem getOption_long (reg : Registry) (opts : Ptr → CliOption) (name sfx : String)
    (hne : name ≠ "") (heq : '=' ∉ name.data)
    (hs : sfx = "" ∨ ∃ v : String, sfx = "=" ++ v) :
    getOptionByArgument ("--" ++ name ++ sfx) reg opts = reg.get? name := by
  unfold getOptionByArgument
  rw [String.append_assoc, hasPrefix_dash2, if_pos rfl, sliceFrom_dash2]
  simp only [splitN2_head name sfx heq hs, if_neg hne]
  rfl

theorem getOption_short (reg : Registry) (opts : Ptr → CliOption) (short sfx : String)
    (hne : short ≠ "") (heq : '=' ∉ short.data) (hd : HasPrefix short "-" = false)
    (hs : sfx = "" ∨ ∃ v : String, sfx = "=" ++ v) :
    getOptionByArgument ("-" ++ short ++ sfx) reg opts =
      (reg.find? (fun e => (opts e.2).Alias == short)).map (fun e => e.2) := by
  have hd2 : HasPrefix (short ++ sfx) "-" = false := by
    rw [hasPrefix_one] at hd ⊢
    rw [String.data_append]
    rcases hsd : short.data with _ | ⟨a, l⟩
    · exact absurd (String.ext (by rw [hsd])) hne
    · rw [hsd] at hd; simpa [List.isPrefixOf] using hd
  unfold getOptionByArgument
  rw [String.append_assoc, hasPrefix_dash12 _ hd2, hasPrefix_dash1, if_pos rfl, sliceFrom_dash1]
  simp only [splitN2_head short sfx heq hs, if_neg hne]
  simp

theorem find_alias_unique (reg : Registry) (opts : Ptr → CliOption) (short : String) (p : Ptr)
    (hk : ∃ k, (k, p) ∈ reg) (ha : (opts p).Alias = short)
    (hu : ∀ e ∈ reg, (opts e.2).Alias = short → e.2 = p) :
    (reg.find? (fun e => (opts e.2).Alias == short)).map (fun e => e.2) = some p := by
  obtain ⟨k, hk⟩ := hk
  cases hf : reg.find? (fun e => (opts e.2).Alias == short) with
  | none =>
    have := List.find?_eq_none.mp hf (k, p) hk
    simp [ha] at this
  | some e =>
    have hm : e ∈ reg := List.mem_of_find?_eq_some hf
    have hp := List.find?_some hf
    simp only [beq_iff_eq] at hp
    simp [hu e hm hp]

theorem spells_resolve {reg : Registry} {opts : Ptr → CliOption} {p : Ptr} {tok : String}
    (h : Spells reg opts p tok) (sfx : String)
    (hs : sfx = "" ∨ ∃ v : String, sfx = "=" ++ v) :
    getOptionByArgument (tok ++ sfx) reg opts = some p := by
  rcases h with ⟨name, rfl, hne, heq, hp⟩ | ⟨short, rfl, hne, heq, hd, ha, hk, hu⟩
  · rw [getOption_long reg opts name sfx hne heq hs, hp]
  · rw [getOption_short reg opts short sfx hne heq hd hs, find_alias_unique reg opts short p hk ha hu]

theorem spells_dash {reg : Registry} {opts : Ptr → CliOption} {p : Ptr} {tok : String}
    (h : Spells reg opts p tok) (sfx : String) : HasPrefix (tok ++ sfx) "-" = true := by
  rcases h with ⟨name, rfl, _⟩ | ⟨short, rfl, _⟩
  · rw [hasPrefix_one]; simp [String.data_append]
  · rw [hasPrefix_one]; simp [String.data_append]

theorem spells_noEq {reg : Registry} {opts : Ptr → CliOption} {p : Ptr} {tok : String}
    (h : Spells reg opts p tok) : '=' ∉ tok.data := by
  rcases h with ⟨name, rfl, _, heq, _⟩ | ⟨short, rfl, _, heq, _⟩
  · simpa [String.data_append] using heq
  · simpa [String.data_append] using heq

theorem count_inline (tok v : String) (h : '=' ∉ tok.data) :
    Count (tok ++ "=" ++ v) = 1 + Count v := by
  have hd : (tok ++ "=" ++ v).data = tok.data ++ '=' :: v.data := by
    simp [String.data_append]
  unfold Count
  rw [hd, List.count_append, List.count_cons_self, List.count_eq_zero.mpr h]
  omega

theorem find_first (cs before after : List Command) (sub : Command) (arg : String)
    (hcs : cs = before ++ sub :: after) (hb : ∀ c ∈ before, c.Name ≠ arg)
    (hn : sub.Name = arg) :
    cs.find? (fun c => c.Name == arg) = some sub := by
  subst hcs
  induction before with
  | nil => simp [hn]
  | cons b bs ih =>
    have hbn : b.Name ≠ arg := hb b (by simp)
    have : (b.Name == arg) = false := by simpa using hbn
    rw [List.cons_append, List.find?_cons, this]
    exact ih (fun c hc => hb c (by simp [hc]))

theorem find_none (cs : List Command) (arg : String) (h : ∀ c ∈ cs, c.Name ≠ arg) :
    cs.find? (fun c => c.Name == arg) = none := by
  rw [List.find?_eq_none]
  intro c hc
  simpa using h c hc

/-! ## Inline values: `--name=value`, `-alias=value` -/

theorem run_inline_value (cmd : Command) (options : MapRef) (st : State) (p : Ptr)
    (tok v : String) (rest : List String)
    (hs : Spells (st.maps cmd.Options) st.opts p tok)
    (hv : (st.opts p).HasValue = true) (hveq : '=' ∉ v.data) :
    run cmd options ((tok ++ "=" ++ v) :: rest) st = run cmd options rest (st.setValue p v) := by
  have hc : Count (tok ++ "=" ++ v) = 1 := by
    rw [count_inline tok v (spells_noEq hs), count_noEq v hveq]
  have hres := spells_resolve hs ("=" ++ v) (Or.inr ⟨v, rfl⟩)
  have hd := spells_dash hs ("=" ++ v)
  rw [String.append_assoc] at hc
  rw [String.append_assoc,
    run_value_eq cmd options st _ rest p hd hres hv hc, ← String.append_assoc,
    splitN2_cut tok v (spells_noEq hs)]
  rfl

theorem run_inline_value_second_equals (cmd : Command) (options : MapRef) (st : State)
    (p : Ptr) (tok v next : String) (rest : List String)
    (hs : Spells (st.maps cmd.Options) st.opts p tok)
    (hv : (st.opts p).HasValue = true) (hveq : '=' ∈ v.data) :
    run cmd options [tok ++ "=" ++ v] st = run cmd options [] st ∧
    run cmd options ((tok ++ "=" ++ v) :: next :: rest) st =
      if HasPrefix next "-" then run cmd options rest st
      else run cmd options rest (st.setValue p next) := by
  have hc : Count (tok ++ "=" ++ v) ≠ 1 := by
    rw [count_inline tok v (spells_noEq hs)]
    have : 0 < Count v := List.count_pos_iff.mpr hveq
    omega
  have hres := spells_resolve hs ("=" ++ v) (Or.inr ⟨v, rfl⟩)
  have hd := spells_dash hs ("=" ++ v)
  rw [String.append_assoc] at hc
  rw [String.append_assoc]
  exact ⟨run_value_last cmd options st _ p hd hres hv hc,
    run_value_next cmd options st _ next rest p hd hres hv hc⟩

/-- C1 (evaluation at the failing input).  In the tree of `example/main.go`, the
token `--url=https://x.test/?a=b` reaches `push origin`, resolves to the value
option `url`, and leaves its Value at the registered default: a value with a
second `=` is not assigned, although the same token without the query part is
assigned in full. -/
theorem C1_inline_value_with_second_equals_is_dropped :
    ((run exampleRoot 0 ["push", "origin", "--url=https://x.test/?a=b"] exampleState).1.opts
        4).Value = "https://exmaple.com" ∧
    (run exampleRoot 0 ["push", "origin", "--url=https://x.test/?a=b"] exampleState).2 =
      [Event.call 2 0] ∧
    ((run exampleRoot 0 ["push", "origin", "--url=https://x.test/"] exampleState).1.opts
        4).Value = "https://x.test/" := by
  decide

/-! ## Value options followed by another token -/

theorem run_value_dash_next (cmd : Command) (options : MapRef) (st : State) (p : Ptr)
    (tok next : String) (rest : List String)
    (hs : Spells (st.maps cmd.Options) st.opts p tok)
    (hv : (st.opts p).HasValue = true) (hn : HasPrefix next "-" = true) :
    run cmd options (tok :: next :: rest) st = run cmd options rest st := by
  have hc : Count tok ≠ 1 := by rw [count_noEq tok (spells_noEq hs)]; omega
  have hres := spells_resolve hs "" (Or.inl rfl)
  have hd := spells_dash hs ""
  rw [String.append_empty] at hres hd
  rw [run_value_next cmd options st tok next rest p hd hres hv hc, if_pos hn]

/-- C2 (evaluation at the failing input).  At a node with the value option `a`
and the flag `b`, the vector `--a -b` leaves `a` without a value and skips `-b`:
the flag stays unset and the action runs, whereas `-b` alone sets the flag; with
`-z` unregistered, `--a -z` reaches the action without the unknown-option
failure that `-z` alone produces. -/
theorem C2_dash_token_after_value_option_is_skipped :
    ((run abRoot 0 ["--a", "-b"] abState).1.opts 0).Value = "" ∧
    ((run abRoot 0 ["--a", "-b"] abState).1.opts 1).IsFlagSet = false ∧
    (run abRoot 0 ["--a", "-b"] abState).2 = [Event.call 0 0] ∧
    ((run abRoot 0 ["-b"] abState).1.opts 1).IsFlagSet = true ∧
    (run abRoot 0 ["--a", "-z"] abState).2 = [Event.call 0 0] ∧
    (run abRoot 0 ["-z"] abState).2 =
      Event.print "Unknown option: -z\n\n" :: showUsage abRoot abState := by
  decide

/-- C3.  A value option spelled without `=` and followed by a token `t` that
does not start with `-`: the loop assigns `t` to the option's Value and goes on
with the tokens after `t`, so `t` is never looked at as a subcommand or option. -/
theorem C3_value_option_takes_next_token (cmd : Command) (options : MapRef) (st : State)
    (p : Ptr) (tok t : String) (rest : List String)
    (hs : Spells (st.maps cmd.Options) st.opts p tok)
    (hv : (st.opts p).HasValue = true) (ht : HasPrefix t "-" = false) :
    run cmd options (tok :: t :: rest) st = run cmd options rest (st.setValue p t) ∧
    ((st.setValue p t).opts p).Value = t := by
  have hc : Count tok ≠ 1 := by rw [count_noEq tok (spells_noEq hs)]; omega
  have hres := spells_resolve hs "" (Or.inl rfl)
  have hd := spells_dash hs ""
  rw [String.append_empty] at hres hd
  refine ⟨?_, by simp [State.setValue]⟩
  rw [run_value_next cmd options st tok t rest p hd hres hv hc, ht]
  rfl

/-- Witness of C3 in the tree of `example/main.go`: the root's `--config` takes
the token `list`, the name of a child command, as its value. -/
theorem C3_value_option_takes_next_token_witness :
    run exampleRoot 0 ["--config", "list"] exampleState =
      run exampleRoot 0 [] (exampleState.setValue 2 "list") ∧
    ((exampleState.setValue 2 "list").opts 2).Value = "list" :=
  C3_value_option_takes_next_token exampleRoot 0 exampleState 2 "--config" "list" []
    (Or.inl ⟨"config", by decide, by decide, by decide, by decide⟩) (by decide) (by decide)

/-- C4.  A flag option met by the loop: IsFlagSet becomes true, Value and every
other field stay, and the loop goes on with the very next token. -/
theorem C4_flag_sets_IsFlagSet_and_consumes_nothing (cmd : Command) (options : MapRef)
    (st : State) (p : Ptr) (tok : String) (rest : List String)
    (hs : Spells (st.maps cmd.Options) st.opts p tok)
    (hv : (st.opts p).HasValue = false) :
    run cmd options (tok :: rest) st = run cmd options rest (st.setFlag p) ∧
    ((st.setFlag p).opts p).IsFlagSet = true ∧
    ((st.setFlag p).opts p).Value = (st.opts p).Value ∧
    (∀ q, q ≠ p → (st.setFlag p).opts q = st.opts q) ∧
    (st.setFlag p).maps = st.maps := by
  have hres := spells_resolve hs "" (Or.inl rfl)
  have hd := spells_dash hs ""
  rw [String.append_empty] at hres hd
  refine ⟨run_flag cmd options st tok rest p hd hres hv, by simp [State.setFlag],
    by simp [State.setFlag], ?_, rfl⟩
  intro q hq
  simp [State.setFlag, Function.update_noteq hq]

/-- Witness of C4 in the tree of `example/main.go`: `-l` at `list`. -/
theorem C4_flag_sets_IsFlagSet_and_consumes_nothing_witness :
    run exampleList 0 ["-l", "x"] exampleState =
      run exampleList 0 ["x"] (exampleState.setFlag 3) ∧
    ((exampleState.setFlag 3).opts 3).IsFlagSet = true ∧
    ((exampleState.setFlag 3).opts 3).Value = (exampleState.opts 3).Value ∧
    (∀ q, q ≠ 3 → (exampleState.setFlag 3).opts q = exampleState.opts q) ∧
    (exampleState.setFlag 3).maps = exampleState.maps :=
  C4_flag_sets_IsFlagSet_and_consumes_nothing exampleList 0 exampleState 3 "-l" ["x"]
    (Or.inr ⟨"l", by decide, by decide, by decide, by decide, by decide, ⟨"local", by decide⟩,
      by decide⟩) (by decide)

/-! ## Inheritance across a subcommand boundary -/

theorem getOption_mem (arg : String) (reg : Registry) (opts : Ptr → CliOption) (q : Ptr)
    (h : getOptionByArgument arg reg opts = some q) : ∃ e ∈ reg, e.2 = q := by
  unfold getOptionByArgument at h
  split at h
  · simp only at h
    split at h
    · cases h
    · rw [Option.map_eq_some'] at h
      obtain ⟨e, he, rfl⟩ := h
      exact ⟨e, List.mem_of_find?_eq_some he, rfl⟩
  · split at h
    · simp only at h
      split at h
      · cases h
      · rw [Option.map_eq_some'] at h
        obtain ⟨e, he, rfl⟩ := h
        exact ⟨e, List.mem_of_find?_eq_some he, rfl⟩
    · cases h

theorem get?_insert_ne (reg : Registry) (k name : String) (q : Ptr) (h : k ≠ name) :
    (reg.insert k q).get? name = reg.get? name := by
  induction reg with
  | nil => simp [Registry.insert, Registry.get?, h]
  | cons e m ih =>
    unfold Registry.insert
    by_cases hk : (e.1 == k) = true
    · rw [if_pos hk]
      have hek : e.1 = k := by simpa using hk
      have : e.1 ≠ name := hek ▸ h
      simp [Registry.get?, List.find?_cons, h, this]
    · rw [if_neg hk]
      unfold Registry.get? at ih ⊢
      rw [List.find?_cons, List.find?_cons]
      cases (e.1 == name)
      · exact ih
      · rfl

theorem get?_eq_none (reg : Registry) (name : String) :
    reg.get? name = none ↔ ∀ e ∈ reg, e.1 ≠ name := by
  unfold Registry.get?
  rw [Option.map_eq_none', List.find?_eq_none]
  simp

theorem foldl_mapInsert (options : MapRef) (name : String) (es : List (String × Ptr)) :
    ∀ st : State, (∀ e ∈ es, e.1 ≠ name) →
      let st2 := es.foldl (fun s e => s.mapInsert options e.1 e.2) st
      st2.opts = st.opts ∧ (∀ m, m ≠ options → st2.maps m = st.maps m) ∧
      (st2.maps options).get? name = (st.maps options).get? name := by
  induction es with
  | nil => intro st _; exact ⟨rfl, fun _ _ => rfl, rfl⟩
  | cons e es ih =>
    intro st h
    have h1 := ih (st.mapInsert options e.1 e.2) (fun x hx => h x (by simp [hx]))
    simp only [List.foldl_cons] at h1 ⊢
    refine ⟨h1.1, fun m hm => ?_, ?_⟩
    · rw [h1.2.1 m hm]
      simp [State.mapInsert, Function.update_noteq hm]
    · rw [h1.2.2]
      simp only [State.mapInsert, Function.update_same]
      exact get?_insert_ne _ _ _ _ (h e (by simp))

theorem migrate_frame (st : State) (options sub : MapRef) (name : String)
    (h : (st.maps sub).get? name = none) :
    (migrate st options sub).opts = st.opts ∧
    (∀ m, m ≠ options → (migrate st options sub).maps m = st.maps m) ∧
    ((migrate st options sub).maps options).get? name = (st.maps options).get? name :=
  foldl_mapInsert options name (st.maps sub) st ((get?_eq_none _ _).mp h)

theorem untouched_congr {st st2 : State} {cmd : Command} {name : String} {p : Ptr}
    (hm : st2.maps = st.maps) (h : Untouched st cmd name p) : Untouched st2 cmd name p := by
  intro c hc; rw [hm]; exact h c hc

theorem persist (options : MapRef) (name : String) (p : Ptr) (n : Nat) :
    ∀ (args : List String) (cmd : Command) (st : State), args.length ≤ n →
      (st.maps options).get? name = some p → Untouched st cmd name p →
      ((run cmd options args st).1.maps options).get? name = some p ∧
      (run cmd options args st).1.opts p = st.opts p ∧
      ∀ a m, Event.call a m ∈ (run cmd options args st).2 → m = options := by
  induction n with
  | zero =>
    intro args cmd st hlen hS _
    have : args = [] := List.length_eq_zero.mp (by omega)
    subst this
    rw [run_nil]
    cases cmd.Action <;> simp [hS, showUsage]
  | succ n ih =>
    intro args cmd st hlen hS hU
    cases args with
    | nil =>
      rw [run_nil]
      cases cmd.Action <;> simp [hS, showUsage]
    | cons arg rest =>
      have hlen1 : rest.length ≤ n := by simpa using hlen
      rw [run_cons]
      by_cases hd : (HasPrefix arg "--" || HasPrefix arg "-") = true
      · rw [if_pos hd]
        cases hres : getOptionByArgument arg (st.maps cmd.Options) st.opts with
        | none => simp [hS, showUsage]
        | some q =>
          obtain ⟨e, he, heq⟩ := getOption_mem _ _ _ _ hres
          have hqp : q ≠ p := heq ▸ (hU cmd (Within.self cmd)).2 e he
          have hv : ∀ v, (st.setValue q v).opts p = st.opts p := fun v => by
            simp [State.setValue, Function.update_noteq (Ne.symm hqp)]
          have hf : (st.setFlag q).opts p = st.opts p := by
            simp [State.setFlag, Function.update_noteq (Ne.symm hqp)]
          simp only
          by_cases hvq : (st.opts q).HasValue = true
          · rw [if_pos hvq]
            by_cases hc : Count arg = 1
            · rw [if_pos hc]
              by_cases hl : (SplitN2 arg).length = 2
              · simp only [if_pos hl]
                rw [← hv ((SplitN2 arg).getD 1 "")]
                exact ih rest cmd _ hlen1 hS (untouched_congr rfl hU)
              · simp only [if_neg hl]
                exact ih rest cmd _ hlen1 hS hU
            · rw [if_neg hc]
              cases rest with
              | nil => exact ih [] cmd st (by simp) hS hU
              | cons next rest2 =>
                have hlen2 : rest2.length ≤ n := by
                  simp only [List.length_cons] at hlen1; omega
                simp only
                by_cases hn : (!HasPrefix next "-") = true
                · rw [if_pos hn, ← hv next]
                  exact ih rest2 cmd _ hlen2 hS (untouched_congr rfl hU)
                · rw [if_neg hn]
                  exact ih rest2 cmd _ hlen2 hS hU
          · rw [if_neg hvq, ← hf]
            exact ih rest cmd _ hlen1 hS (untouched_congr rfl hU)
      · rw [if_neg hd]
        cases hsub : cmd.Commands.find? (fun c => c.Name == arg) with
        | none => simp [hS, showUsage]
        | some sub =>
          simp only
          have hmem : sub ∈ cmd.Commands := List.mem_of_find?_eq_some hsub
          have hsubU := hU sub (Within.child hmem (Within.self sub))
          obtain ⟨ho, hm, hg⟩ := migrate_frame st options sub.Options name hsubU.1
          have hU2 : Untouched (migrate st options sub.Options) sub name p := by
            intro c hc
            have hcU := hU c (Within.child hmem hc)
            have hne : c.Options ≠ options := by
              intro e
              rw [e, hS] at hcU
              exact absurd hcU.1 (by simp)
            rw [hm _ hne]
            exact hcU
          rw [← ho]
          exact ih rest sub _ hlen1 (hg.trans hS) hU2

/-- C5 (counterexample).  The parent's flag `x` is set by `--x` before the token
`sub`; the child `sub` registers an option of its own under the name `x`, so
the set its action receives maps `x` to the child's record, whose IsFlagSet is
false, and the parent's resolved record is no entry of the set. -/
theorem C5_same_named_child_option_replaces_resolved_one :
    (run shadowRoot 0 ["--x", "sub"] shadowState).2 = [Event.call 1 0] ∧
    ((run shadowRoot 0 ["--x", "sub"] shadowState).1.opts 0).IsFlagSet = true ∧
    ((run shadowRoot 0 ["--x", "sub"] shadowState).1.maps 0).get? "x" = some 1 ∧
    ((run shadowRoot 0 ["--x", "sub"] shadowState).1.opts 1).IsFlagSet = false ∧
    (∀ e ∈ (run shadowRoot 0 ["--x", "sub"] shadowState).1.maps 0, e.2 ≠ 0) := by
  decide

/-- C5 (amended).  Let the loop at `anc` turn the store into `st` over the
tokens `pre`, and let the next token match the child `sub`.  If the option set
holds the record `p` of `anc` under `name`, and no node of the subtree of `sub`
registers the name `name` or the record `p`, then every action invoked by the
dispatch receives the option set, which still maps `name` to `p`, and `p` is
exactly as the tokens before the subcommand left it. -/
theorem C5_inherited_option_reaches_action (anc sub : Command) (options : MapRef)
    (st0 st : State) (name : String) (p : Ptr) (pre : List String) (tok : String)
    (rest : List String)
    (hpre : ∀ more, run anc options (pre ++ more) st0 = run anc options more st)
    (hd : HasPrefix tok "-" = false)
    (hsub : anc.Commands.find? (fun c => c.Name == tok) = some sub)
    (hanc : (st.maps anc.Options).get? name = some p)
    (hset : (st.maps options).get? name = some p)
    (hfree : Untouched st sub name p) :
    ∀ a m, Event.call a m ∈ (run anc options (pre ++ tok :: rest) st0).2 →
      m = options ∧
      ((run anc options (pre ++ tok :: rest) st0).1.maps m).get? name = some p ∧
      (run anc options (pre ++ tok :: rest) st0).1.opts p = st.opts p := by
  have _ := hanc
  rw [hpre, run_enter anc sub options st tok rest hd hsub]
  obtain ⟨ho, hm, hg⟩ := migrate_frame st options sub.Options name (hfree sub (Within.self sub)).1
  have hU2 : Untouched (migrate st options sub.Options) sub name p := by
    intro c hc
    have hcU := hfree c hc
    have hne : c.Options ≠ options := by
      intro e
      rw [e, hset] at hcU
      exact absurd hcU.1 (by simp)
    rw [hm _ hne]
    exact hcU
  have key := persist options name p rest.length rest sub (migrate st options sub.Options)
    (Nat.le_refl _) (hg.trans hset) hU2
  intro a m hcall
  have hmo := key.2.2 a m hcall
  subst hmo
  exact ⟨rfl, key.1, key.2.1.trans (congrFun ho p)⟩

/-- Witness of C5 in the tree of `example/main.go`: `--config=app.yaml list -l`
invokes `listFunc` (callback 1) on a set whose `config` entry is the root's
record, with Value `app.yaml`. -/
theorem C5_inherited_option_reaches_action_witness :
    (0 : MapRef) = 0 ∧
    ((run exampleRoot 0 (["--config=app.yaml"] ++ "list" :: ["-l"]) exampleState).1.maps
        0).get? "config" = some 2 ∧
    (run exampleRoot 0 (["--config=app.yaml"] ++ "list" :: ["-l"]) exampleState).1.opts 2 =
      (exampleState.setValue 2 "app.yaml").opts 2 :=
  C5_inherited_option_reaches_action exampleRoot exampleList 0 exampleState
    (exampleState.setValue 2 "app.yaml") "config" 2 ["--config=app.yaml"] "list" ["-l"]
    (fun more =>
      run_inline_value exampleRoot 0 exampleState 2 "--config" "app.yaml" more
        (Or.inl ⟨"config", by decide, by decide, by decide, by decide⟩) (by decide)
        (by decide))
    (by decide) rfl (by decide) (by decide)
    (fun c hc => by
      cases hc with
      | self => exact ⟨by decide, by decide⟩
      | child hm _ => exact absurd hm (by simp [exampleList, Command.Commands]))
    1 0 (by decide)

/-! ## Subcommands, unknown tokens, the end of the loop -/

/-- C6.  A positional token equal to the name of a child: `run` is the run of
the first such child in registration order, on the tokens after the positional
one, with the option set it was given after the child's entries have been
written into it; nothing of the parent remains (no token, no action). -/
theorem C6_positional_token_enters_first_matching_child (cmd sub : Command)
    (options : MapRef) (st : State) (tok : String) (rest : List String)
    (before after : List Command)
    (hd : HasPrefix tok "-" = false)
    (hcs : cmd.Commands = before ++ sub :: after)
    (hb : ∀ c ∈ before, c.Name ≠ tok) (hn : sub.Name = tok) :
    run cmd options (tok :: rest) st =
      run sub options rest (migrate st options sub.Options) :=
  run_enter cmd sub options st tok rest hd (find_first _ before after sub tok hcs hb hn)

/-- Witness of C6 in the tree of `example/main.go`: `push` is the second child
of the root. -/
theorem C6_positional_token_enters_first_matching_child_witness :
    run exampleRoot 0 ["push", "origin"] exampleState =
      run examplePush 0 ["origin"] (migrate exampleState 0 examplePush.Options) :=
  C6_positional_token_enters_first_matching_child exampleRoot examplePush 0 exampleState
    "push" ["origin"] [exampleList] [] (by decide) rfl (by decide) (by decide)

/-- C7.  A token that starts with `-` and does not resolve against the node's
own registry: `run` prints the unknown-option line and the node's usage and
returns, whatever the option set handed down holds; no action is invoked, no
record or registry changes, and the tokens after it are not visited. -/
theorem C7_unknown_option_prints_usage_and_stops (cmd : Command) (options : MapRef)
    (st : State) (tok : String) (rest : List String)
    (hd : HasPrefix tok "-" = true)
    (hres : getOptionByArgument tok (st.maps cmd.Options) st.opts = none) :
    run cmd options (tok :: rest) st =
      (st, [Event.print ("Unknown option: " ++ tok ++ "\n\n"),
            Event.print (usageText cmd st ++ "\n")]) :=
  run_unknown_option cmd options st tok rest hd hres

/-- Witness of C7 in the tree of `example/main.go`: `--config` is an option of
the root and an entry of the set handed to `list`, yet unknown at `list`. -/
theorem C7_unknown_option_prints_usage_and_stops_witness :
    run exampleList 0 ["--config", "list"] exampleState =
      (exampleState, [Event.print ("Unknown option: " ++ "--config" ++ "\n\n"),
            Event.print (usageText exampleList exampleState ++ "\n")]) :=
  C7_unknown_option_prints_usage_and_stops exampleList 0 exampleState "--config" ["list"]
    (by decide) (by decide)

/-- C8.  A positional token equal to the name of no child: `run` prints the
unknown-sub-command line and the node's usage and returns; no action is
invoked and nothing changes. -/
theorem C8_unknown_subcommand_prints_usage_and_stops (cmd : Command) (options : MapRef)
    (st : State) (tok : String) (rest : List String)
    (hd : HasPrefix tok "-" = false)
    (hno : ∀ c ∈ cmd.Commands, c.Name ≠ tok) :
    run cmd options (tok :: rest) st =
      (st, [Event.print ("Unknown sub command: " ++ tok ++ "\n\n"),
            Event.print (usageText cmd st ++ "\n")]) :=
  run_unknown_sub cmd options st tok rest hd (find_none _ tok hno)

/-- Witness of C8 in the tree of `example/main.go`: `origin` is a child of
`push`, not of the root. -/
theorem C8_unknown_subcommand_prints_usage_and_stops_witness :
    run exampleRoot 0 ["origin", "-l"] exampleState =
      (exampleState, [Event.print ("Unknown sub command: " ++ "origin" ++ "\n\n"),
            Event.print (usageText exampleRoot exampleState ++ "\n")]) :=
  C8_unknown_subcommand_prints_usage_and_stops exampleRoot 0 exampleState "origin" ["-l"]
    (by decide) (by decide)

theorem optionPass_nil (cmd : Command) (st : State) : optionPass cmd [] st = some st := rfl

set_option smartUnfolding false in
theorem optionPass_cons (cmd : Command) (st : State) (arg : String) (rest : List String) :
    optionPass cmd (arg :: rest) st =
    if Strings.HasPrefix arg "--" || Strings.HasPrefix arg "-" then
      match getOptionByArgument arg (st.maps cmd.Options) st.opts with
      | none => none
      | some foundOption =>
        if (st.opts foundOption).HasValue then
          if Strings.Count arg = 1 then
            let parts := Strings.SplitN2 arg
            if parts.length = 2 then
              optionPass cmd rest (st.setValue foundOption (parts.getD 1 ""))
            else optionPass cmd rest st
          else
            match rest with
            | [] => some st
            | next :: rest2 =>
              if !Strings.HasPrefix next "-" then
                optionPass cmd rest2 (st.setValue foundOption next)
              else optionPass cmd rest2 st
        else optionPass cmd rest (st.setFlag foundOption)
    else none := by
  cases rest <;> rfl

theorem run_of_optionPass (cmd : Command) (options : MapRef) (n : Nat) :
    ∀ (args : List String) (st st1 : State), args.length ≤ n →
      optionPass cmd args st = some st1 → run cmd options args st = run cmd options [] st1 := by
  induction n with
  | zero =>
    intro args st st1 hlen h
    have : args = [] := List.length_eq_zero.mp (by omega)
    subst this
    rw [optionPass_nil] at h
    cases h; rfl
  | succ n ih =>
    intro args st st1 hlen h
    cases args with
    | nil => rw [optionPass_nil] at h; cases h; rfl
    | cons arg rest =>
      have hlen1 : rest.length ≤ n := by simpa using hlen
      rw [optionPass_cons] at h
      rw [run_cons]
      by_cases hd : (HasPrefix arg "--" || HasPrefix arg "-") = true
      · rw [if_pos hd] at h ⊢
        cases hres : getOptionByArgument arg (st.maps cmd.Options) st.opts with
        | none => rw [hres] at h; cases h
        | some p =>
          rw [hres] at h
          simp only at h ⊢
          by_cases hv : (st.opts p).HasValue = true
          · rw [if_pos hv] at h ⊢
            by_cases hc : Count arg = 1
            · rw [if_pos hc] at h ⊢
              by_cases hl : (SplitN2 arg).length = 2
              · rw [if_pos hl] at h ⊢
                exact ih rest _ st1 hlen1 h
              · rw [if_neg hl] at h ⊢
                exact ih rest _ st1 hlen1 h
            · rw [if_neg hc] at h ⊢
              cases rest with
              | nil => simp only at h ⊢; cases h; rfl
              | cons next rest2 =>
                have hlen2 : rest2.length ≤ n := by
                  simp only [List.length_cons] at hlen1; omega
                simp only at h ⊢
                by_cases hn : (!HasPrefix next "-") = true
                · rw [if_pos hn] at h ⊢
                  exact ih rest2 _ st1 hlen2 h
                · rw [if_neg hn] at h ⊢
                  exact ih rest2 _ st1 hlen2 h
          · rw [if_neg hv] at h ⊢
            exact ih rest _ st1 hlen1 h
      · rw [if_neg hd] at h
        cases h

/-- C9.  When the loop walks through the whole vector at the node (every token
an option of the node or taken by the option before it), `run` ends in the
store the loop left: with an action it invokes that action once on the option
set it was given and prints nothing; without one it prints the node's usage
and invokes nothing. -/
theorem C9_loop_end_invokes_action_or_prints_usage (cmd : Command) (options : MapRef)
    (args : List String) (st st1 : State) (h : optionPass cmd args st = some st1) :
    run cmd options args st =
      (st1, match cmd.Action with
            | some action => [Event.call action options]
            | none => [Event.print (usageText cmd st1 ++ "\n")]) := by
  rw [run_of_optionPass cmd options args.length args st st1 (Nat.le_refl _) h, run_nil]
  cases cmd.Action <;> rfl

/-- Witness of C9 in the tree of `example/main.go`: `-l` at `list` (action
`listFunc`), and `push` without tokens (no action). -/
theorem C9_loop_end_invokes_action_or_prints_usage_witness :
    run exampleList 0 ["-l"] exampleState =
      (exampleState.setFlag 3, match exampleList.Action with
            | some action => [Event.call action 0]
            | none => [Event.print (usageText exampleList (exampleState.setFlag 3) ++ "\n")]) :=
  C9_loop_end_invokes_action_or_prints_usage exampleList 0 ["-l"] exampleState
    (exampleState.setFlag 3) (by
      rw [optionPass_cons]
      rfl)

theorem isHelpFlagSet_of_mem (args : List String)
    (h : "--help" ∈ args ∨ "-h" ∈ args) : isHelpFlagSet args = true := by
  unfold isHelpFlagSet
  rw [List.any_eq_true]
  rcases h with h | h
  · exact ⟨_, h, by decide⟩
  · exact ⟨_, h, by decide⟩

/-- C10.  A non-empty vector that holds `--help` or `-h` anywhere: `Cli.Run`
prints the root's usage, once, and nothing else; no action is invoked, no
version line is printed, and the store (every option record and registry) is
what it was. -/
theorem C10_help_prints_root_usage_only (cli : Cli) (args : List String) (st : State)
    (hne : args ≠ []) (h : "--help" ∈ args ∨ "-h" ∈ args) :
    cli.Run args st = some (st, [Event.print (usageText cli.Command st ++ "\n")]) := by
  unfold Cli.Run
  have hl : ¬ args.length = 0 := fun e => hne (List.length_eq_zero.mp e)
  rw [if_neg hl, if_pos (isHelpFlagSet_of_mem args h)]
  rfl

/-- Witness of C10 in the tree of `example/main.go`: `-h` directly after the
value option `--config`, with `--version` and a subcommand before it. -/
theorem C10_help_prints_root_usage_only_witness :
    exampleCli.Run ["--version", "push", "--config", "-h"] exampleState =
      some (exampleState, [Event.print (usageText exampleCli.Command exampleState ++ "\n")]) :=
  C10_help_prints_root_usage_only exampleCli ["--version", "push", "--config", "-h"]
    exampleState (by decide) (by decide)

/-! ## The usage line -/

theorem foldl_append_groups {α : Type} (f : α → String) (l : List α) :
    ∀ init : String,
      l.foldl (fun u e => u ++ f e) init = init ++ (l.map f).foldr (fun s t => s ++ t) "" := by
  induction l with
  | nil => intro init; simp
  | cons a l ih =>
    intro init
    rw [List.foldl_cons, ih, List.map_cons, List.foldr_cons, String.append_assoc]

/-- C16.  `showUsage` prints one line: `Usage: ` and the node's name, then the
bracket group of every registry entry in the order of the traversal (`--name`
and `-alias` joined by `|` when both are non-empty, the non-empty one alone
otherwise, nothing when both are empty), then, exactly when the node has a
child, ` [`, the non-empty child names in registration order joined by `|`,
and `]`; the newline follows at once. -/
theorem C16_usage_line_format (cmd : Command) (st : State) :
    showUsage cmd st =
      [Event.print
        ("Usage: " ++ cmd.Name ++
          ((st.maps cmd.Options).map (fun e => usageOption e.1 (st.opts e.2))).foldr
            (fun s t => s ++ t) "" ++
          (if cmd.Commands.length = 0 then ""
           else " [" ++ "|".intercalate
              ((cmd.Commands.map Command.Name).filter (fun n => n != "")) ++ "]") ++
          "\n")] ∧
    (∀ (n : String) (o : CliOption), n ≠ "" → o.Alias ≠ "" →
      usageOption n o = " [--" ++ n ++ "|-" ++ o.Alias ++ "]") ∧
    (∀ (n : String) (o : CliOption), n ≠ "" → o.Alias = "" →
      usageOption n o = " [--" ++ n ++ "]") ∧
    (∀ o : CliOption, o.Alias ≠ "" → usageOption "" o = " [-" ++ o.Alias ++ "]") ∧
    (∀ o : CliOption, o.Alias = "" → usageOption "" o = "") := by
  refine ⟨?_, ?_, ?_, ?_, ?_⟩
  · unfold showUsage usageText
    simp only [foldl_append_groups]
    have hmap : (cmd.Commands.filter (fun c => c.Name != "")).map (fun c => c.Name) =
        (cmd.Commands.map Command.Name).filter (fun n => n != "") := by
      rw [List.filter_map]; rfl
    rw [hmap]
    by_cases hl : cmd.Commands.length = 0
    · have : ¬ cmd.Commands.length > 0 := by omega
      simp [hl]
    · have : cmd.Commands.length > 0 := by omega
      simp only [if_neg hl, if_pos this, String.append_assoc]
  · intro n o hn ha; simp [usageOption, hn, ha]
  · intro n o hn ha; simp [usageOption, hn, ha]
  · intro o ha; simp [usageOption, ha]
  · intro o ha; simp [usageOption, ha]

/-! ## The argument resolver -/

theorem splitN2_head_eq (s : String) :
    (SplitN2 s).headD "" = String.mk (s.data.takeWhile (fun c => c != '=')) := by
  unfold SplitN2
  by_cases h : '=' ∈ s.data
  · rw [if_pos h]; rfl
  · rw [if_neg h]
    have : s.data.takeWhile (fun c => c != '=') = s.data := by
      rw [List.takeWhile_eq_self_iff]
      intro x hx
      have : x ≠ '=' := fun e => h (e ▸ hx)
      simpa using this
    rw [this]; rfl

theorem getOption_double (tok : String) (reg : Registry) (opts : Ptr → CliOption)
    (h : HasPrefix tok "--" = true) :
    getOptionByArgument tok reg opts =
      if candidate 2 tok = "" then none else reg.get? (candidate 2 tok) := by
  unfold getOptionByArgument
  rw [if_pos h]
  simp only [splitN2_head_eq]
  rfl

theorem getOption_single (tok : String) (reg : Registry) (opts : Ptr → CliOption)
    (h1 : HasPrefix tok "-" = true) (h2 : HasPrefix tok "--" = false) :
    getOptionByArgument tok reg opts =
      if candidate 1 tok = "" then none
      else (reg.find? (fun e => (opts e.2).Alias == candidate 1 tok)).map (fun e => e.2) := by
  unfold getOptionByArgument
  rw [h2, h1]
  simp only [splitN2_head_eq]
  rfl

theorem hasPrefix_two_of_not_one (tok : String) (h : HasPrefix tok "-" = false) :
    HasPrefix tok "--" = false := by
  rw [hasPrefix_one] at h
  rw [hasPrefix_two]
  generalize tok.data = d at h ⊢
  rcases d with _ | ⟨a, _ | ⟨b, l⟩⟩ <;> simp_all [List.isPrefixOf]

theorem getOption_positional (tok : String) (reg : Registry) (opts : Ptr → CliOption)
    (h : HasPrefix tok "-" = false) : getOptionByArgument tok reg opts = none := by
  unfold getOptionByArgument
  rw [hasPrefix_two_of_not_one tok h, h]
  rfl

theorem get?_eq_some_mem (reg : Registry) (k : String) (p : Ptr) (h : reg.get? k = some p) :
    (k, p) ∈ reg := by
  unfold Registry.get? at h
  rw [Option.map_eq_some'] at h
  obtain ⟨e, he, rfl⟩ := h
  have hm := List.mem_of_find?_eq_some he
  have hk := List.find?_some he
  simp only [beq_iff_eq] at hk
  rw [← hk]; exact hm

/-- C18.  A token that starts with `--` resolves by name only: the result is
the registry's binding of the text between `--` and the first `=` (or the end),
and none when that text is empty or no option is registered under it; the
aliases of the records play no part. -/
theorem C18_long_token_resolves_by_name (tok : String) (reg : Registry)
    (opts : Ptr → CliOption) (h : HasPrefix tok "--" = true) :
    getOptionByArgument tok reg opts =
      (if candidate 2 tok = "" then none else reg.get? (candidate 2 tok)) ∧
    (∀ p, getOptionByArgument tok reg opts = some p →
      candidate 2 tok ≠ "" ∧ (candidate 2 tok, p) ∈ reg) ∧
    ((candidate 2 tok = "" ∨ ∀ e ∈ reg, e.1 ≠ candidate 2 tok) →
      getOptionByArgument tok reg opts = none) ∧
    (∀ opts2 : Ptr → CliOption,
      getOptionByArgument tok reg opts2 = getOptionByArgument tok reg opts) := by
  refine ⟨getOption_double tok reg opts h, ?_, ?_, ?_⟩
  · intro p hp
    rw [getOption_double tok reg opts h] at hp
    by_cases hc : candidate 2 tok = ""
    · rw [if_pos hc] at hp; cases hp
    · rw [if_neg hc] at hp
      exact ⟨hc, get?_eq_some_mem _ _ _ hp⟩
  · intro hno
    rw [getOption_double tok reg opts h]
    rcases hno with hc | hno
    · rw [if_pos hc]
    · split
      · rfl
      · exact (get?_eq_none reg _).mpr hno
  · intro opts2
    rw [getOption_double tok reg opts h, getOption_double tok reg opts2 h]

/-- Witness of C18 on the registry of the `origin` command of `example/main.go`,
for the token `--url=x`. -/
theorem C18_long_token_resolves_by_name_witness :
    getOptionByArgument "--url=x" (exampleState.maps 3) exampleState.opts =
      (if candidate 2 "--url=x" = "" then none
        else (exampleState.maps 3).get? (candidate 2 "--url=x")) ∧
    (∀ p, getOptionByArgument "--url=x" (exampleState.maps 3) exampleState.opts = some p →
      candidate 2 "--url=x" ≠ "" ∧ (candidate 2 "--url=x", p) ∈ exampleState.maps 3) ∧
    ((candidate 2 "--url=x" = "" ∨ ∀ e ∈ exampleState.maps 3, e.1 ≠ candidate 2 "--url=x") →
      getOptionByArgument "--url=x" (exampleState.maps 3) exampleState.opts = none) ∧
    (∀ opts2 : Ptr → CliOption,
      getOptionByArgument "--url=x" (exampleState.maps 3) opts2 =
        getOptionByArgument "--url=x" (exampleState.maps 3) exampleState.opts) :=
  C18_long_token_resolves_by_name "--url=x" (exampleState.maps 3) exampleState.opts (by decide)

/-- C19.  For every registry, also one with an entry under the empty name or
with records whose alias is empty, the resolver returns none for `--`, for `-`,
for every `--=x` and `-=x`, and for every token that does not start with `-`. -/
theorem C19_empty_candidate_and_positional_resolve_to_none (reg : Registry)
    (opts : Ptr → CliOption) :
    getOptionByArgument "--" reg opts = none ∧
    getOptionByArgument "-" reg opts = none ∧
    (∀ x : String, getOptionByArgument ("--=" ++ x) reg opts = none) ∧
    (∀ x : String, getOptionByArgument ("-=" ++ x) reg opts = none) ∧
    (∀ tok : String, HasPrefix tok "-" = false → getOptionByArgument tok reg opts = none) := by
  refine ⟨?_, ?_, ?_, ?_, fun tok h => getOption_positional tok reg opts h⟩
  · rw [getOption_double _ _ _ (by decide), if_pos (by decide)]
  · rw [getOption_single _ _ _ (by decide) (by decide), if_pos (by decide)]
  · intro x
    have hp : HasPrefix ("--=" ++ x) "--" = true := by
      rw [hasPrefix_two]; simp [String.data_append]
    have hc : candidate 2 ("--=" ++ x) = "" := by
      unfold candidate; apply String.ext; simp [String.data_append]
    rw [getOption_double _ _ _ hp, if_pos hc]
  · intro x
    have hp1 : HasPrefix ("-=" ++ x) "-" = true := by
      rw [hasPrefix_one]; simp [String.data_append]
    have hp2 : HasPrefix ("-=" ++ x) "--" = false := by
      rw [hasPrefix_two]; simp [String.data_append, List.isPrefixOf]
    have hc : candidate 1 ("-=" ++ x) = "" := by
      unfold candidate; apply String.ext; simp [String.data_append]
    rw [getOption_single _ _ _ hp1 hp2, if_pos hc]

theorem find_alias_none (reg : Registry) (opts : Ptr → CliOption) (short : String)
    (h : ∀ e ∈ reg, (opts e.2).Alias ≠ short) :
    (reg.find? (fun e => (opts e.2).Alias == short)).map (fun e => e.2) = none := by
  rw [Option.map_eq_none', List.find?_eq_none]
  intro e he
  simpa using h e he

/-- C17.  A token that starts with one `-` and not with `--`, on a registry in
which records with the same non-empty alias are the same record: the resolver
returns the record whose alias is the text between `-` and the first `=` (or
the end) when that text is non-empty and there is such a record, and none
otherwise, whatever the names of the entries are; every other iteration order
of the registry gives the same result. -/
theorem C17_short_token_resolves_by_alias (tok : String) (reg reg2 : Registry)
    (opts : Ptr → CliOption)
    (h1 : HasPrefix tok "-" = true) (h2 : HasPrefix tok "--" = false)
    (hu : ∀ e1 ∈ reg, ∀ e2 ∈ reg, (opts e1.2).Alias ≠ "" →
      (opts e1.2).Alias = (opts e2.2).Alias → e1.2 = e2.2)
    (hperm : reg2.Perm reg) :
    (∀ e ∈ reg, candidate 1 tok ≠ "" → (opts e.2).Alias = candidate 1 tok →
      getOptionByArgument tok reg opts = some e.2) ∧
    ((candidate 1 tok = "" ∨ ∀ e ∈ reg, (opts e.2).Alias ≠ candidate 1 tok) →
      getOptionByArgument tok reg opts = none) ∧
    getOptionByArgument tok reg2 opts = getOptionByArgument tok reg opts := by
  have hsome : ∀ r : Registry, (∀ x, x ∈ r ↔ x ∈ reg) → ∀ e ∈ reg, candidate 1 tok ≠ "" →
      (opts e.2).Alias = candidate 1 tok → getOptionByArgument tok r opts = some e.2 := by
    intro r hr e he hc ha
    rw [getOption_single tok r opts h1 h2, if_neg hc]
    refine find_alias_unique r opts _ e.2 ⟨e.1, (hr _).mpr he⟩ ha ?_
    intro e2 he2 ha2
    exact (hu e he e2 ((hr _).mp he2) (ha ▸ hc) (ha.trans ha2.symm)).symm
  have hnone : ∀ r : Registry, (∀ x, x ∈ r ↔ x ∈ reg) →
      (candidate 1 tok = "" ∨ ∀ e ∈ reg, (opts e.2).Alias ≠ candidate 1 tok) →
      getOptionByArgument tok r opts = none := by
    intro r hr hno
    rw [getOption_single tok r opts h1 h2]
    rcases hno with hc | hno
    · rw [if_pos hc]
    · split
      · rfl
      · exact find_alias_none r opts _ (fun e he => hno e ((hr _).mp he))
  refine ⟨hsome reg (fun _ => Iff.rfl), hnone reg (fun _ => Iff.rfl), ?_⟩
  have hr2 : ∀ x, x ∈ reg2 ↔ x ∈ reg := fun x => hperm.mem_iff
  by_cases hc : candidate 1 tok = ""
  · rw [hnone reg2 hr2 (Or.inl hc), hnone reg (fun _ => Iff.rfl) (Or.inl hc)]
  · by_cases hex : ∃ e ∈ reg, (opts e.2).Alias = candidate 1 tok
    · obtain ⟨e, he, ha⟩ := hex
      rw [hsome reg2 hr2 e he hc ha, hsome reg (fun _ => Iff.rfl) e he hc ha]
    · have hno : ∀ e ∈ reg, (opts e.2).Alias ≠ candidate 1 tok :=
        fun e he ha => hex ⟨e, he, ha⟩
      rw [hnone reg2 hr2 (Or.inr hno), hnone reg (fun _ => Iff.rfl) (Or.inr hno)]

/-- Witness of C17 on the root registry of `example/main.go`: `-c=x` resolves to
the record of `config`, in the order of registration and in the reverse order. -/
theorem C17_short_token_resolves_by_alias_witness :
    (∀ e ∈ exampleState.maps 0, candidate 1 "-c=x" ≠ "" →
      (exampleState.opts e.2).Alias = candidate 1 "-c=x" →
      getOptionByArgument "-c=x" (exampleState.maps 0) exampleState.opts = some e.2) ∧
    ((candidate 1 "-c=x" = "" ∨
        ∀ e ∈ exampleState.maps 0, (exampleState.opts e.2).Alias ≠ candidate 1 "-c=x") →
      getOptionByArgument "-c=x" (exampleState.maps 0) exampleState.opts = none) ∧
    getOptionByArgument "-c=x" (exampleState.maps 0).reverse exampleState.opts =
      getOptionByArgument "-c=x" (exampleState.maps 0) exampleState.opts :=
  C17_short_token_resolves_by_alias "-c=x" (exampleState.maps 0) (exampleState.maps 0).reverse
    exampleState.opts (by decide) (by decide) (by decide) (List.reverse_perm _)

/-! ## The top-level runner -/

theorem isVersionFlagSet_iff (args : List String) :
    isVersionFlagSet args = true ↔ ("--version" ∈ args ∨ "-v" ∈ args) := by
  unfold isVersionFlagSet
  rw [List.any_eq_true]
  constructor
  · rintro ⟨x, hx, h⟩
    have e1 : "--" ++ OptVersionName = "--version" := by decide
    have e2 : "-" ++ OptVersionAlias = "-v" := by decide
    rw [e1, e2] at h
    simp only [Bool.or_eq_true, beq_iff_eq] at h
    rcases h with h | h
    · exact Or.inl (h ▸ hx)
    · exact Or.inr (h ▸ hx)
  · rintro (h | h)
    · exact ⟨_, h, by decide⟩
    · exact ⟨_, h, by decide⟩

theorem isHelpFlagSet_iff (args : List String) :
    isHelpFlagSet args = true ↔ ("--help" ∈ args ∨ "-h" ∈ args) := by
  unfold isHelpFlagSet
  rw [List.any_eq_true]
  constructor
  · rintro ⟨x, hx, h⟩
    have e1 : "--" ++ OptHelpName = "--help" := by decide
    have e2 : "-" ++ OptHelpAlias = "-h" := by decide
    rw [e1, e2] at h
    simp only [Bool.or_eq_true, beq_iff_eq] at h
    rcases h with h | h
    · exact Or.inl (h ▸ hx)
    · exact Or.inr (h ▸ hx)
  · rintro (h | h)
    · exact ⟨_, h, by decide⟩
    · exact ⟨_, h, by decide⟩

theorem cliRun_dispatch (cli : Cli) (args : List String) (st : State)
    (hne : args ≠ []) (hh : isHelpFlagSet args = false) :
    cli.Run args st =
      some ((run cli.Command cli.Command.Options args st).1,
        (if isVersionFlagSet args then [Event.print ("Version: " ++ cli.Version ++ "\n")]
          else []) ++ (run cli.Command cli.Command.Options args st).2) := by
  unfold Cli.Run
  have hl : ¬ args.length = 0 := fun e => hne (List.length_eq_zero.mp e)
  rw [if_neg hl, hh]
  simp

/-- C12.  A non-empty vector without a help token: when it holds `--version` or
`-v`, `Cli.Run` prints the version line and then does exactly what the dispatch
of the whole vector from the root with the root's registry does (same store,
same prints and call); otherwise it does exactly that dispatch and prints no
version line. -/
theorem C12_version_line_then_full_dispatch (cli : Cli) (args : List String) (st : State)
    (hne : args ≠ []) (hh1 : "--help" ∉ args) (hh2 : "-h" ∉ args) :
    (("--version" ∈ args ∨ "-v" ∈ args) →
      cli.Run args st =
        some ((run cli.Command cli.Command.Options args st).1,
          Event.print ("Version: " ++ cli.Version ++ "\n") ::
            (run cli.Command cli.Command.Options args st).2)) ∧
    (¬ ("--version" ∈ args ∨ "-v" ∈ args) →
      cli.Run args st = some (run cli.Command cli.Command.Options args st)) := by
  have hh : isHelpFlagSet args = false := by
    rw [Bool.eq_false_iff, Ne, isHelpFlagSet_iff]
    rintro (h | h)
    · exact hh1 h
    · exact hh2 h
  rw [cliRun_dispatch cli args st hne hh]
  constructor
  · intro hv
    rw [(isVersionFlagSet_iff args).mpr hv]
    rfl
  · intro hv
    have : isVersionFlagSet args = false := by
      rw [Bool.eq_false_iff, Ne, isVersionFlagSet_iff]; exact hv
    rw [this]
    rfl

/-- Witness of C12 in the tree of `example/main.go`: `list -v`, where the
dispatch that follows the version line fails with an unknown option at `list`. -/
theorem C12_version_line_then_full_dispatch_witness :
    (("--version" ∈ ["list", "-v"] ∨ "-v" ∈ ["list", "-v"]) →
      exampleCli.Run ["list", "-v"] exampleState =
        some ((run exampleCli.Command exampleCli.Command.Options ["list", "-v"] exampleState).1,
          Event.print ("Version: " ++ exampleCli.Version ++ "\n") ::
            (run exampleCli.Command exampleCli.Command.Options ["list", "-v"]
              exampleState).2)) ∧
    (¬ ("--version" ∈ ["list", "-v"] ∨ "-v" ∈ ["list", "-v"]) →
      exampleCli.Run ["list", "-v"] exampleState =
        some (run exampleCli.Command exampleCli.Command.Options ["list", "-v"] exampleState)) :=
  C12_version_line_then_full_dispatch exampleCli ["list", "-v"] exampleState
    (by decide) (by decide) (by decide)

/-- C13.  A root with an action and the empty vector: `Cli.Run` invokes that
action once on the root's own registry and does nothing else; the store is
untouched and nothing is printed. -/
theorem C13_empty_vector_invokes_root_action (cli : Cli) (st : State) (action : ActionId)
    (ha : cli.Command.Action = some action) :
    cli.Run [] st = some (st, [Event.call action cli.Command.Options]) := by
  unfold Cli.Run
  rw [if_pos (by rfl : ([] : List String).length = 0), ha]

/-- Witness of C13 in the tree of `example/main.go`. -/
theorem C13_empty_vector_invokes_root_action_witness :
    exampleCli.Run [] exampleState = some (exampleState, [Event.call 0 exampleCli.Command.Options]) :=
  C13_empty_vector_invokes_root_action exampleCli exampleState 0 rfl

theorem cliRun_isSome_of_ne_nil (cli : Cli) (args : List String) (st : State)
    (hne : args ≠ []) : (cli.Run args st).isSome = true := by
  unfold Cli.Run
  have hl : ¬ args.length = 0 := fun e => hne (List.length_eq_zero.mp e)
  rw [if_neg hl]
  split <;> rfl

/-- C14 (evaluation at the failing input).  A `Cli` built by `NewCli(nil)` and
run on the empty vector calls the nil `Action`: `Cli.Run` does not complete,
whereas `run` on the same root and vector tests the `Action` and prints the
usage. -/
theorem C14_empty_vector_with_nil_root_action_panics (base : String) (h : Alloc) (st : State) :
    (NewCli none base h).1.Run [] st = none ∧
    run (NewCli none base h).1.Command (NewCli none base h).1.Command.Options [] st =
      (st, showUsage (NewCli none base h).1.Command st) := by
  exact ⟨rfl, rfl⟩

/-! ## Trees built by `NewCli` -/

theorem get?_of_unique (reg : Registry) (k : String) (p : Ptr) (hm : (k, p) ∈ reg)
    (hu : ∀ e ∈ reg, e.1 = k → e.2 = p) : reg.get? k = some p := by
  unfold Registry.get?
  cases hf : reg.find? (fun e => e.1 == k) with
  | none =>
    have := List.find?_eq_none.mp hf (k, p) hm
    simp at this
  | some e =>
    have he : e ∈ reg := List.mem_of_find?_eq_some hf
    have hk := List.find?_some hf
    simp only [beq_iff_eq] at hk
    simp [hu e he hk]

theorem newCli_command (a : Option ActionId) (base : String) (h : Alloc) :
    (NewCli a base h).1.Command = Command.mk a [] base "" h.freeMap := rfl

theorem newCli_registry (a : Option ActionId) (base : String) (h : Alloc) :
    (NewCli a base h).2.store.maps h.freeMap =
      [(OptHelpName, h.freePtr), (OptVersionName, h.freePtr + 1)] := by
  simp [NewCli, Alloc.makeMap, Alloc.newOption, State.mapInsert, Registry.insert]
  decide

theorem newCli_help (a : Option ActionId) (base : String) (h : Alloc) :
    (NewCli a base h).2.store.opts h.freePtr = ⟨OptHelpAlias, "", "", false, false⟩ := by
  simp [NewCli, Alloc.makeMap, Alloc.newOption, State.mapInsert]

theorem newCli_version (a : Option ActionId) (base : String) (h : Alloc) :
    (NewCli a base h).2.store.opts (h.freePtr + 1) = ⟨OptVersionAlias, "", "", false, false⟩ := by
  simp [NewCli, Alloc.makeMap, Alloc.newOption, State.mapInsert]

theorem newCli_spells_version (a : Option ActionId) (base : String) (h : Alloc) (st : State)
    (hst : Reordered (NewCli a base h).2.store st) :
    Spells (st.maps h.freeMap) st.opts (h.freePtr + 1) "--version" ∧
    Spells (st.maps h.freeMap) st.opts (h.freePtr + 1) "-v" ∧
    (st.opts (h.freePtr + 1)).HasValue = false := by
  obtain ⟨ho, hm⟩ := hst
  have hmem : ∀ e, e ∈ st.maps h.freeMap ↔
      e = (OptHelpName, h.freePtr) ∨ e = (OptVersionName, h.freePtr + 1) := by
    intro e
    rw [(hm h.freeMap).mem_iff, newCli_registry]
    simp
  refine ⟨Or.inl ⟨"version", by decide, by decide, by decide, ?_⟩,
    Or.inr ⟨"v", by decide, by decide, by decide, by decide, ?_, ⟨"version", ?_⟩, ?_⟩, ?_⟩
  · apply get?_of_unique
    · exact (hmem _).mpr (Or.inr rfl)
    · intro e he hk
      rcases (hmem e).mp he with rfl | rfl
      · have hne : OptHelpName ≠ "version" := by decide
        exact absurd hk hne
      · rfl
  · rw [ho, newCli_version]; rfl
  · exact (hmem _).mpr (Or.inr rfl)
  · intro e he ha
    rcases (hmem e).mp he with rfl | rfl
    · rw [ho, newCli_help] at ha
      exact absurd ha (by decide)
    · rfl
  · rw [ho, newCli_version]

/-- C11.  A `Cli` built by `NewCli` with a root action, given the version `v`
by `SetVersion` and run on `--version` (or on `-v`): the run prints the line
`Version: v` and then invokes the root action; as that action prints nothing,
standard output holds exactly `Version: ` + `v` + newline.  This holds in every
iteration order of the root registry. -/
theorem C11_version_flag_prints_version_line (v base : String) (action : ActionId)
    (h : Alloc) (st : State) (hst : Reordered (NewCli (some action) base h).2.store st) :
    ((NewCli (some action) base h).1.SetVersion v).Run ["--version"] st =
      some (st.setFlag (h.freePtr + 1),
        [Event.print ("Version: " ++ v ++ "\n"), Event.call action h.freeMap]) ∧
    ((NewCli (some action) base h).1.SetVersion v).Run ["-v"] st =
      some (st.setFlag (h.freePtr + 1),
        [Event.print ("Version: " ++ v ++ "\n"), Event.call action h.freeMap]) ∧
    stdout [Event.print ("Version: " ++ v ++ "\n"), Event.call action h.freeMap] =
      "Version: " ++ v ++ "\n" := by
  obtain ⟨hs1, hs2, hv⟩ := newCli_spells_version (some action) base h st hst
  have key : ∀ tok, Spells (st.maps h.freeMap) st.opts (h.freePtr + 1) tok →
      run (Command.mk (some action) [] base "" h.freeMap) h.freeMap [tok] st =
        (st.setFlag (h.freePtr + 1), [Event.call action h.freeMap]) := by
    intro tok hs
    have hres := spells_resolve hs "" (Or.inl rfl)
    have hd := spells_dash hs ""
    rw [String.append_empty] at hres hd
    rw [run_flag (Command.mk (some action) [] base "" h.freeMap) h.freeMap st tok []
      (h.freePtr + 1) hd hres hv, run_nil]
    rfl
  have ho : (Command.mk (some action) [] base "" h.freeMap).Options = h.freeMap := rfl
  refine ⟨?_, ?_, ?_⟩
  · rw [cliRun_dispatch _ _ _ (by simp) (by decide)]
    have : isVersionFlagSet ["--version"] = true := by decide
    rw [this]
    simp only [Cli.SetVersion, newCli_command]
    rw [ho, key "--version" hs1]
    rfl
  · rw [cliRun_dispatch _ _ _ (by simp) (by decide)]
    have : isVersionFlagSet ["-v"] = true := by decide
    rw [this]
    simp only [Cli.SetVersion, newCli_command]
    rw [ho, key "-v" hs2]
    rfl
  · simp [stdout]

/-- Witness of C11 for the test `TestVersionOption` (`v` is `1.0.0`, the program
is `app`), the root registry being iterated in the reverse order. -/
theorem C11_version_flag_prints_version_line_witness :
    ((NewCli (some 0) "app" emptyAlloc).1.SetVersion "1.0.0").Run ["--version"]
        ⟨(NewCli (some 0) "app" emptyAlloc).2.store.opts,
          fun m => ((NewCli (some 0) "app" emptyAlloc).2.store.maps m).reverse⟩ =
      some (State.setFlag ⟨(NewCli (some 0) "app" emptyAlloc).2.store.opts,
          fun m => ((NewCli (some 0) "app" emptyAlloc).2.store.maps m).reverse⟩
            (emptyAlloc.freePtr + 1),
        [Event.print ("Version: " ++ "1.0.0" ++ "\n"), Event.call 0 emptyAlloc.freeMap]) ∧
    ((NewCli (some 0) "app" emptyAlloc).1.SetVersion "1.0.0").Run ["-v"]
        ⟨(NewCli (some 0) "app" emptyAlloc).2.store.opts,
          fun m => ((NewCli (some 0) "app" emptyAlloc).2.store.maps m).reverse⟩ =
      some (State.setFlag ⟨(NewCli (some 0) "app" emptyAlloc).2.store.opts,
          fun m => ((NewCli (some 0) "app" emptyAlloc).2.store.maps m).reverse⟩
            (emptyAlloc.freePtr + 1),
        [Event.print ("Version: " ++ "1.0.0" ++ "\n"), Event.call 0 emptyAlloc.freeMap]) ∧
    stdout [Event.print ("Version: " ++ "1.0.0" ++ "\n"), Event.call 0 emptyAlloc.freeMap] =
      "Version: " ++ "1.0.0" ++ "\n" :=
  C11_version_flag_prints_version_line "1.0.0" "app" 0 emptyAlloc
    ⟨(NewCli (some 0) "app" emptyAlloc).2.store.opts,
      fun m => ((NewCli (some 0) "app" emptyAlloc).2.store.maps m).reverse⟩
    ⟨rfl, fun _ => List.reverse_perm _⟩

/-! ## The reserved `config` option -/

theorem config_registry (a : Option ActionId) (base : String) (h : Alloc) :
    ((NewCli a base h).1.Command.SetDefaultConfigOption (NewCli a base h).2).store.maps
        h.freeMap =
      [(OptHelpName, h.freePtr), (OptVersionName, h.freePtr + 1),
       (OptConfigName, h.freePtr + 2)] := by
  have e1 : OptHelpName ≠ OptConfigName := by decide
  have e2 : OptVersionName ≠ OptConfigName := by decide
  have e3 : OptHelpName ≠ OptVersionName := by decide
  simp [NewCli, Command.SetDefaultConfigOption, Command.Options, Alloc.makeMap,
    Alloc.newOption, State.mapInsert, Registry.insert, e1, e2, e3]

theorem config_records (a : Option ActionId) (base : String) (h : Alloc) :
    ((NewCli a base h).1.Command.SetDefaultConfigOption (NewCli a base h).2).store.opts
        h.freePtr = ⟨OptHelpAlias, "", "", false, false⟩ ∧
    ((NewCli a base h).1.Command.SetDefaultConfigOption (NewCli a base h).2).store.opts
        (h.freePtr + 1) = ⟨OptVersionAlias, "", "", false, false⟩ ∧
    ((NewCli a base h).1.Command.SetDefaultConfigOption (NewCli a base h).2).store.opts
        (h.freePtr + 2) = ⟨OptConfigAlias, "", OptConfigDesc, true, false⟩ := by
  simp [NewCli, Command.SetDefaultConfigOption, Command.Options, Alloc.makeMap,
    Alloc.newOption, State.mapInsert, Function.update_apply]
  exact Nat.ne_of_lt (Nat.lt_succ_of_lt (Nat.lt_succ_self _))

theorem config_spells (a : Option ActionId) (base : String) (h : Alloc) (st : State)
    (hst : Reordered
      ((NewCli a base h).1.Command.SetDefaultConfigOption (NewCli a base h).2).store st) :
    Spells (st.maps h.freeMap) st.opts (h.freePtr + 2) "--config" ∧
    Spells (st.maps h.freeMap) st.opts (h.freePtr + 2) "-c" ∧
    st.opts (h.freePtr + 2) = ⟨OptConfigAlias, "", OptConfigDesc, true, false⟩ := by
  obtain ⟨ho, hm⟩ := hst
  obtain ⟨r0, r1, r2⟩ := config_records a base h
  have hmem : ∀ e, e ∈ st.maps h.freeMap ↔
      e = (OptHelpName, h.freePtr) ∨ e = (OptVersionName, h.freePtr + 1) ∨
      e = (OptConfigName, h.freePtr + 2) := by
    intro e
    rw [(hm h.freeMap).mem_iff, config_registry]
    simp
  refine ⟨Or.inl ⟨"config", by decide, by decide, by decide, ?_⟩,
    Or.inr ⟨"c", by decide, by decide, by decide, by decide, ?_, ⟨"config", ?_⟩, ?_⟩, ?_⟩
  · apply get?_of_unique
    · exact (hmem _).mpr (Or.inr (Or.inr rfl))
    · intro e he hk
      rcases (hmem e).mp he with rfl | rfl | rfl
      · have hne : OptHelpName ≠ "config" := by decide
        exact absurd hk hne
      · have hne : OptVersionName ≠ "config" := by decide
        exact absurd hk hne
      · rfl
  · rw [ho, r2]; rfl
  · exact (hmem _).mpr (Or.inr (Or.inr rfl))
  · intro e he ha
    rcases (hmem e).mp he with rfl | rfl | rfl
    · rw [ho, r0] at ha
      exact absurd ha (by decide)
    · rw [ho, r1] at ha
      exact absurd ha (by decide)
    · rfl
  · rw [ho, r2]

theorem ne_of_head_ne (s t : String) (a b : Char) (l r : List Char)
    (hs : s.data = a :: l) (ht : t.data = b :: r) (hab : a ≠ b) : s ≠ t := by
  intro e
  rw [e, ht] at hs
  exact hab (List.cons.inj hs).1.symm

theorem not_reserved_of_positional (p : String) (hp : HasPrefix p "-" = false) :
    p ≠ "--help" ∧ p ≠ "-h" ∧ p ≠ "--version" ∧ p ≠ "-v" := by
  refine ⟨?_, ?_, ?_, ?_⟩ <;> (intro e; rw [e] at hp; exact absurd hp (by decide))

theorem config_inline_not_reserved (p : String) :
    isHelpFlagSet ["--config=" ++ p] = false ∧ isVersionFlagSet ["--config=" ++ p] = false := by
  have hd : ("--config=" ++ p).data = '-' :: '-' :: 'c' :: ("onfig=".data ++ p.data) := by
    rw [String.data_append]; rfl
  have hne : ∀ t : String, (t.data.drop 2).head? ≠ some 'c' → "--config=" ++ p ≠ t := by
    intro t ht e
    rw [← e, hd] at ht
    exact ht rfl
  have h1 := hne "--help" (by decide)
  have h2 := hne "-h" (by decide)
  have h3 := hne "--version" (by decide)
  have h4 := hne "-v" (by decide)
  have e1 : "--" ++ OptHelpName = "--help" := by decide
  have e2 : "-" ++ OptHelpAlias = "-h" := by decide
  have e3 : "--" ++ OptVersionName = "--version" := by decide
  have e4 : "-" ++ OptVersionAlias = "-v" := by decide
  constructor
  · simp [isHelpFlagSet, e1, e2, h1, h2]
  · simp [isVersionFlagSet, e3, e4, h3, h4]

theorem config_pair_not_reserved (p : String) (hp : HasPrefix p "-" = false) :
    isHelpFlagSet ["-c", p] = false ∧ isVersionFlagSet ["-c", p] = false := by
  obtain ⟨h1, h2, h3, h4⟩ := not_reserved_of_positional p hp
  have e1 : "--" ++ OptHelpName = "--help" := by decide
  have e2 : "-" ++ OptHelpAlias = "-h" := by decide
  have e3 : "--" ++ OptVersionName = "--version" := by decide
  have e4 : "-" ++ OptVersionAlias = "-v" := by decide
  have c1 : "-c" ≠ "--help" := by decide
  have c2 : "-c" ≠ "-h" := by decide
  have c3 : "-c" ≠ "--version" := by decide
  have c4 : "-c" ≠ "-v" := by decide
  constructor
  · simp [isHelpFlagSet, e1, e2, h1, h2, c1, c2]
  · simp [isVersionFlagSet, e3, e4, h3, h4, c3, c4]

theorem config_option_value (base p : String) (action : ActionId) (h : Alloc) (st : State)
    (hst : Reordered ((NewCli (some action) base h).1.Command.SetDefaultConfigOption
      (NewCli (some action) base h).2).store st) :
    ('=' ∉ p.data →
      (NewCli (some action) base h).1.Run ["--config=" ++ p] st =
        some (st.setValue (h.freePtr + 2) p, [Event.call action h.freeMap])) ∧
    (HasPrefix p "-" = false →
      (NewCli (some action) base h).1.Run ["-c", p] st =
        some (st.setValue (h.freePtr + 2) p, [Event.call action h.freeMap])) ∧
    (∀ v, (st.setValue (h.freePtr + 2) v).maps = st.maps ∧
      (st.setValue (h.freePtr + 2) v).opts (h.freePtr + 2) =
        ⟨OptConfigAlias, v, OptConfigDesc, true, false⟩) := by
  obtain ⟨hs1, hs2, hrec⟩ := config_spells (some action) base h st hst
  have hv : (st.opts (h.freePtr + 2)).HasValue = true := by rw [hrec]
  have ho : (Command.mk (some action) [] base "" h.freeMap).Options = h.freeMap := rfl
  refine ⟨?_, ?_, ?_⟩
  · intro hp
    obtain ⟨n1, n2⟩ := config_inline_not_reserved p
    rw [cliRun_dispatch _ _ _ (by simp) n1, n2, newCli_command, ho]
    have et : "--config=" ++ p = "--config" ++ "=" ++ p := by
      rw [show ("--config=" : String) = "--config" ++ "=" by decide]
    rw [et, run_inline_value (Command.mk (some action) [] base "" h.freeMap) h.freeMap st
      (h.freePtr + 2) "--config" p [] hs1 hv hp, run_nil]
    rfl
  · intro hp
    obtain ⟨n1, n2⟩ := config_pair_not_reserved p hp
    rw [cliRun_dispatch _ _ _ (by simp) n1, n2, newCli_command, ho]
    have hc : Count "-c" ≠ 1 := by decide
    have hres := spells_resolve hs2 "" (Or.inl rfl)
    rw [String.append_empty] at hres
    rw [run_value_next (Command.mk (some action) [] base "" h.freeMap) h.freeMap st "-c" p []
      (h.freePtr + 2) (by decide) hres hv hc, hp, run_nil]
    rfl
  · intro v
    refine ⟨rfl, ?_⟩
    simp [State.setValue, hrec]

/-- C20 (evaluation at the failing input).  After `NewCli` with a root action
and `SetDefaultConfigOption` on the root, `--config=conf/a=b.yaml` invokes the
root action with the set whose `config` entry takes a value but still has the
empty Value, while `-c conf/a=b.yaml` and `--config=conf/app.yaml` leave the
path in it. -/
theorem C20_config_path_with_equals_is_dropped :
    ((NewCli (some 0) "app" emptyAlloc).1.Run ["--config=conf/a=b.yaml"]
        ((NewCli (some 0) "app" emptyAlloc).1.Command.SetDefaultConfigOption
          (NewCli (some 0) "app" emptyAlloc).2).store).map
      (fun r => (r.2, (r.1.maps 0).get? "config", (r.1.opts 2).HasValue, (r.1.opts 2).Value)) =
      some ([Event.call 0 0], some 2, true, "") ∧
    ((NewCli (some 0) "app" emptyAlloc).1.Run ["-c", "conf/a=b.yaml"]
        ((NewCli (some 0) "app" emptyAlloc).1.Command.SetDefaultConfigOption
          (NewCli (some 0) "app" emptyAlloc).2).store).map
      (fun r => (r.2, (r.1.maps 0).get? "config", (r.1.opts 2).HasValue, (r.1.opts 2).Value)) =
      some ([Event.call 0 0], some 2, true, "conf/a=b.yaml") ∧
    ((NewCli (some 0) "app" emptyAlloc).1.Run ["--config=conf/app.yaml"]
        ((NewCli (some 0) "app" emptyAlloc).1.Command.SetDefaultConfigOption
          (NewCli (some 0) "app" emptyAlloc).2).store).map
      (fun r => (r.2, (r.1.maps 0).get? "config", (r.1.opts 2).HasValue, (r.1.opts 2).Value)) =
      some ([Event.call 0 0], some 2, true, "conf/app.yaml") := by
  decide

/-! ## The merged option set along the path of matched subcommands -/

theorem get?_cons (e : String × Ptr) (reg : Registry) (name : String) :
    Registry.get? (e :: reg) name = if e.1 = name then some e.2 else reg.get? name := by
  unfold Registry.get?
  rw [List.find?_cons]
  by_cases h : e.1 = name
  · have hb : (e.1 == name) = true := by simpa using h
    rw [hb, if_pos h]; rfl
  · have hb : (e.1 == name) = false := by simpa using h
    rw [hb, if_neg h]

theorem get?_insert (reg : Registry) (k name : String) (q : Ptr) :
    (reg.insert k q).get? name = if k = name then some q else reg.get? name := by
  by_cases h : k = name
  · rw [if_pos h]
    subst h
    induction reg with
    | nil => simp [Registry.insert, get?_cons]
    | cons e m ih =>
      unfold Registry.insert
      by_cases hk : (e.1 == k) = true
      · rw [if_pos hk, get?_cons]; simp
      · rw [if_neg hk, get?_cons, ih]
        have : e.1 ≠ k := by simpa using hk
        simp [this]
  · rw [if_neg h]; exact get?_insert_ne reg k name q h

theorem foldl_mapInsert_frame (options : MapRef) (es : List (String × Ptr)) :
    ∀ st : State,
      (es.foldl (fun s e => s.mapInsert options e.1 e.2) st).opts = st.opts ∧
      ∀ m, m ≠ options →
        (es.foldl (fun s e => s.mapInsert options e.1 e.2) st).maps m = st.maps m := by
  induction es with
  | nil => intro st; exact ⟨rfl, fun _ _ => rfl⟩
  | cons e es ih =>
    intro st
    rw [List.foldl_cons]
    refine ⟨(ih _).1, fun m hm => ?_⟩
    rw [(ih _).2 m hm]
    simp [State.mapInsert, Function.update_noteq hm]

theorem foldl_mapInsert_get? (options : MapRef) (name : String) (es : List (String × Ptr)) :
    ∀ st : State, (es.map Prod.fst).Nodup →
      ((es.foldl (fun s e => s.mapInsert options e.1 e.2) st).maps options).get? name =
        match Registry.get? es name with
        | some p => some p
        | none => (st.maps options).get? name := by
  induction es with
  | nil => intro st _; rfl
  | cons e es ih =>
    intro st hnd
    rw [List.map_cons, List.nodup_cons] at hnd
    rw [List.foldl_cons, ih _ hnd.2, get?_cons]
    have hins : ((st.mapInsert options e.1 e.2).maps options).get? name =
        if e.1 = name then some e.2 else (st.maps options).get? name := by
      simp only [State.mapInsert, Function.update_same]
      exact get?_insert _ _ _ _
    rw [hins]
    by_cases h : e.1 = name
    · have hn : Registry.get? es name = none := by
        rw [get?_eq_none]
        intro x hx hxn
        exact hnd.1 (List.mem_map.mpr ⟨x, hx, hxn.trans h.symm⟩)
      rw [hn, if_pos h, if_pos h]
    · rw [if_neg h, if_neg h]

theorem migrate_get? (st : State) (options sub : MapRef) (name : String)
    (hnd : ((st.maps sub).map Prod.fst).Nodup) :
    ((migrate st options sub).maps options).get? name =
      match (st.maps sub).get? name with
      | some p => some p
      | none => (st.maps options).get? name :=
  foldl_mapInsert_get? options name (st.maps sub) st hnd

theorem migrate_opts (st : State) (options sub : MapRef) :
    (migrate st options sub).opts = st.opts ∧
    ∀ m, m ≠ options → (migrate st options sub).maps m = st.maps m :=
  foldl_mapInsert_frame options (st.maps sub) st

theorem below_of_below_child {cmd sub c : Command} (hs : sub ∈ cmd.Commands)
    (h : Below sub c) : Below cmd c := by
  obtain ⟨s2, hs2, hw⟩ := h
  exact ⟨sub, hs, Within.child hs2 hw⟩

theorem run_path (options : MapRef) (regs : MapRef → Registry) (n : Nat) :
    ∀ (args : List String) (cmd : Command) (st : State), args.length ≤ n →
      (∀ c, Below cmd c → c.Options ≠ options ∧ st.maps c.Options = regs c.Options ∧
        ((regs c.Options).map Prod.fst).Nodup) →
      ∀ a m, Event.call a m ∈ (run cmd options args st).2 →
        ∃ path : List Command,
          List.Chain (fun p c => c ∈ p.Commands) cmd path ∧
          (path.map Command.Name).Sublist args ∧
          (path.getLastD cmd).Action = some a ∧ m = options ∧
          ∀ name, ((run cmd options args st).1.maps options).get? name =
            path.foldl (overlay regs name) ((st.maps options).get? name) := by
  induction n with
  | zero =>
    intro args cmd st hlen _ a m hcall
    have : args = [] := List.length_eq_zero.mp (by omega)
    subst this
    rw [run_nil] at hcall ⊢
    cases hact : cmd.Action with
    | none => rw [hact] at hcall; simp [showUsage] at hcall
    | some a2 =>
      rw [hact] at hcall
      simp only [List.mem_singleton, Event.call.injEq] at hcall
      obtain ⟨rfl, rfl⟩ := hcall
      exact ⟨[], List.Chain.nil, List.Sublist.slnil, hact, rfl, fun _ => rfl⟩
  | succ n ih =>
    intro args cmd st hlen hB a m hcall
    cases args with
    | nil =>
      rw [run_nil] at hcall ⊢
      cases hact : cmd.Action with
      | none => rw [hact] at hcall; simp [showUsage] at hcall
      | some a2 =>
        rw [hact] at hcall
        simp only [List.mem_singleton, Event.call.injEq] at hcall
        obtain ⟨rfl, rfl⟩ := hcall
        exact ⟨[], List.Chain.nil, List.Sublist.slnil, hact, rfl, fun _ => rfl⟩
    | cons arg rest =>
      have hlen1 : rest.length ≤ n := by simpa using hlen
      have step : ∀ (rest2 : List String) (st2 : State), rest2.length ≤ n →
          rest2.Sublist (arg :: rest) → st2.maps = st.maps →
          run cmd options (arg :: rest) st = run cmd options rest2 st2 →
          ∃ path : List Command,
            List.Chain (fun p c => c ∈ p.Commands) cmd path ∧
            (path.map Command.Name).Sublist (arg :: rest) ∧
            (path.getLastD cmd).Action = some a ∧ m = options ∧
            ∀ name, ((run cmd options (arg :: rest) st).1.maps options).get? name =
              path.foldl (overlay regs name) ((st.maps options).get? name) := by
        intro rest2 st2 hl2 hsub hmaps heq
        rw [heq] at hcall ⊢
        obtain ⟨path, hc, hs, hact, hm, hget⟩ :=
          ih rest2 cmd st2 hl2 (fun c hc => by rw [hmaps]; exact hB c hc) a m hcall
        exact ⟨path, hc, hs.trans hsub, hact, hm, fun name => by rw [hget name, hmaps]⟩
      by_cases hd : (HasPrefix arg "--" || HasPrefix arg "-") = true
      · cases hres : getOptionByArgument arg (st.maps cmd.Options) st.opts with
        | none =>
          rw [run_cons, if_pos hd, hres] at hcall
          simp [showUsage] at hcall
        | some q =>
          have hrun := run_cons cmd options st arg rest
          rw [if_pos hd, hres] at hrun
          simp only at hrun
          by_cases hvq : (st.opts q).HasValue = true
          · rw [if_pos hvq] at hrun
            by_cases hc : Count arg = 1
            · rw [if_pos hc] at hrun
              by_cases hl : (SplitN2 arg).length = 2
              · rw [if_pos hl] at hrun
                exact step rest _ hlen1 (List.sublist_cons_self _ _) (by rfl) hrun
              · rw [if_neg hl] at hrun
                exact step rest _ hlen1 (List.sublist_cons_self _ _) (by rfl) hrun
            · rw [if_neg hc] at hrun
              cases rest with
              | nil =>
                simp only at hrun
                exact step [] st (by simp) (List.nil_sublist _) (by rfl) hrun
              | cons next rest2 =>
                have hlen2 : rest2.length ≤ n := by
                  simp only [List.length_cons] at hlen1; omega
                have hsub2 : rest2.Sublist (arg :: next :: rest2) :=
                  (List.sublist_cons_self _ _).trans (List.sublist_cons_self _ _)
                simp only at hrun
                by_cases hn : (!HasPrefix next "-") = true
                · rw [if_pos hn] at hrun
                  exact step rest2 _ hlen2 hsub2 (by rfl) hrun
                · rw [if_neg hn] at hrun
                  exact step rest2 _ hlen2 hsub2 (by rfl) hrun
          · rw [if_neg hvq] at hrun
            exact step rest _ hlen1 (List.sublist_cons_self _ _) (by rfl) hrun
      · cases hsub : cmd.Commands.find? (fun c => c.Name == arg) with
        | none =>
          rw [run_cons, if_neg hd, hsub] at hcall
          simp [showUsage] at hcall
        | some sub =>
          have hrun := run_cons cmd options st arg rest
          rw [if_neg hd, hsub] at hrun
          simp only at hrun
          have hmem : sub ∈ cmd.Commands := List.mem_of_find?_eq_some hsub
          have hname : sub.Name = arg := by
            have := List.find?_some hsub
            simpa using this
          have hsubB := hB sub ⟨sub, hmem, Within.self sub⟩
          obtain ⟨ho, hm⟩ := migrate_opts st options sub.Options
          rw [hrun] at hcall ⊢
          obtain ⟨path, hc, hs, hact, hmo, hget⟩ :=
            ih rest sub (migrate st options sub.Options) hlen1
              (fun c hc => by
                obtain ⟨h1, h2, h3⟩ := hB c (below_of_below_child hmem hc)
                exact ⟨h1, by rw [hm _ h1]; exact h2, h3⟩) a m hcall
          refine ⟨sub :: path, List.Chain.cons hmem hc, ?_, ?_, hmo, fun name => ?_⟩
          · rw [List.map_cons, hname]
            exact hs.cons₂ arg
          · rw [List.getLastD_cons]; exact hact
          · rw [hget name, List.foldl_cons]
            congr 1
            rw [migrate_get? st options sub.Options name (by rw [hsubB.2.1]; exact hsubB.2.2)]
            unfold overlay
            rw [← hsubB.2.1]

theorem foldl_overlay_some (maps : MapRef → Registry) (name : String) (path : List Command) :
    ∀ init : Option Ptr,
      (∃ p, path.foldl (overlay maps name) init = some p) ↔
        ((∃ p, init = some p) ∨ ∃ c ∈ path, ∃ p, (maps c.Options).get? name = some p) := by
  induction path with
  | nil => intro init; simp
  | cons c path ih =>
    intro init
    rw [List.foldl_cons, ih]
    unfold overlay
    cases hc : (maps c.Options).get? name with
    | none =>
      simp only [List.mem_cons, exists_eq_or_imp, hc]
      simp
    | some q =>
      simp only [List.mem_cons, exists_eq_or_imp, hc]
      simp

/-- C15.  Dispatch from the root with the root's registry as the option set,
the registries of the nodes below the root being maps of their own: an action
that is invoked is the action of the last node of a path of children `c1`, ...,
`ck` under the root whose names occur in this order in the vector, it receives
the root's map, and in that map every name is bound to the record of the
deepest node of root, `c1`, ..., `ck` that registers it; the names of the map
are exactly the names registered by some node of the path. -/
theorem C15_action_receives_union_along_path (root : Command) (args : List String)
    (st : State) (a : ActionId) (m : MapRef)
    (hreg : ∀ c, Below root c →
      c.Options ≠ root.Options ∧ ((st.maps c.Options).map Prod.fst).Nodup)
    (hcall : Event.call a m ∈ (run root root.Options args st).2) :
    ∃ path : List Command,
      List.Chain (fun p c => c ∈ p.Commands) root path ∧
      (path.map Command.Name).Sublist args ∧
      (path.getLastD root).Action = some a ∧ m = root.Options ∧
      (∀ name, ((run root root.Options args st).1.maps m).get? name =
        deepest st (root :: path) name) ∧
      (∀ name, (∃ p, ((run root root.Options args st).1.maps m).get? name = some p) ↔
        ∃ c ∈ root :: path, ∃ p, (st.maps c.Options).get? name = some p) := by
  obtain ⟨path, hc, hs, hact, hm, hget⟩ :=
    run_path root.Options st.maps args.length args root st (Nat.le_refl _)
      (fun c hc => ⟨(hreg c hc).1, rfl, (hreg c hc).2⟩) a m hcall
  subst hm
  have hdeep : ∀ name, ((run root root.Options args st).1.maps root.Options).get? name =
      deepest st (root :: path) name := by
    intro name
    rw [hget name]
    unfold deepest
    rw [List.foldl_cons]
    congr 1
    unfold overlay
    cases (st.maps root.Options).get? name <;> rfl
  refine ⟨path, hc, hs, hact, rfl, hdeep, fun name => ?_⟩
  rw [hdeep name]
  unfold deepest
  rw [foldl_overlay_some]
  simp

/-- Witness of C15 in the tree of `example/main.go`: `push origin` invokes
`pushOringFunc` (callback 2) on the root's map. -/
theorem C15_action_receives_union_along_path_witness :
    ∃ path : List Command,
      List.Chain (fun p c => c ∈ p.Commands) exampleRoot path ∧
      (path.map Command.Name).Sublist ["push", "origin"] ∧
      (path.getLastD exampleRoot).Action = some 2 ∧ (0 : MapRef) = exampleRoot.Options ∧
      (∀ name,
        ((run exampleRoot exampleRoot.Options ["push", "origin"] exampleState).1.maps 0).get?
            name = deepest exampleState (exampleRoot :: path) name) ∧
      (∀ name,
        (∃ p, ((run exampleRoot exampleRoot.Options ["push", "origin"]
            exampleState).1.maps 0).get? name = some p) ↔
          ∃ c ∈ exampleRoot :: path, ∃ p, (exampleState.maps c.Options).get? name = some p) :=
  C15_action_receives_union_along_path exampleRoot ["push", "origin"] exampleState 2 0
    (fun c hc => by
      obtain ⟨sub, hsub, hw⟩ := hc
      have hsub2 : sub = exampleList ∨ sub = examplePush := by
        simpa [exampleRoot, Command.Commands] using hsub
      rcases hsub2 with rfl | rfl
      · cases hw with
        | self => exact ⟨by decide, by decide⟩
        | child hm _ => exact absurd hm (by simp [exampleList, Command.Commands])
      · cases hw with
        | self => exact ⟨by decide, by decide⟩
        | @child _ s2 _ hm hw2 =>
          have hs2 : s2 = exampleOrigin := by
            simpa [examplePush, Command.Commands] using hm
          subst hs2
          cases hw2 with
          | self => exact ⟨by decide, by decide⟩
          | child hm2 _ => exact absurd hm2 (by simp [exampleOrigin, Command.Commands]))
    (by decide)

/-! ## Induction along a dispatch -/

theorem splitN2_second_cut (arg : String) (hl : (SplitN2 arg).length = 2) :
    ∃ pre : String, '=' ∉ pre.data ∧ arg = pre ++ "=" ++ (SplitN2 arg).getD 1 "" := by
  unfold SplitN2 at hl ⊢
  by_cases h : '=' ∈ arg.data
  · rw [if_pos h]
    refine ⟨String.mk (arg.data.takeWhile (fun c => c != '=')), ?_, ?_⟩
    · intro hin
      have := List.mem_takeWhile_imp hin
      simp at this
    · have hne : arg.data.dropWhile (fun c => c != '=') ≠ [] := by
        intro e
        rw [List.dropWhile_eq_nil_iff] at e
        have := e '=' h
        simp at this
      have hhead := List.head_dropWhile_not (fun c => c != '=') arg.data hne
      obtain ⟨a, l, hal⟩ := List.exists_cons_of_ne_nil hne
      have ha : a = '=' := by
        simp only [hal, List.head_cons] at hhead
        simpa using hhead
      apply String.ext
      have hsplit := List.takeWhile_append_dropWhile (fun c => c != '=') arg.data
      rw [hal, ha] at hsplit
      simp only [String.data_append, List.getD_cons_succ, List.getD_cons_zero, hal,
        List.tail_cons]
      conv_lhs => rw [← hsplit]
      simp
  · rw [if_neg h] at hl
    simp at hl

theorem run_induction (options : MapRef)
    (P : Command → List String → State → State × List Event → Prop)
    (hnil : ∀ cmd st, P cmd [] st (run cmd options [] st))
    (hstop : ∀ cmd st arg rest msg,
      (msg = "Unknown option: " ++ arg ++ "\n\n" ∨
        msg = "Unknown sub command: " ++ arg ++ "\n\n") →
      P cmd (arg :: rest) st (st, Event.print msg :: showUsage cmd st))
    (hopt : ∀ cmd st arg rest rest2 q st2 r,
      (∃ e ∈ st.maps cmd.Options, e.2 = q) →
      (∃ skipped : List String, rest = skipped ++ rest2 ∧ skipped.length ≤ 1) →
      (st2 = st ∨ st2 = st.setFlag q ∨
        ∃ v : String, st2 = st.setValue q v ∧
          ((∃ pre : String, '=' ∉ pre.data ∧ arg = pre ++ "=" ++ v) ∨ v ∈ rest)) →
      P cmd rest2 st2 r → P cmd (arg :: rest) st r)
    (hsub : ∀ cmd st arg rest sub r, sub ∈ cmd.Commands → sub.Name = arg →
      P sub rest (migrate st options sub.Options) r → P cmd (arg :: rest) st r) :
    ∀ (args : List String) (cmd : Command) (st : State),
      P cmd args st (run cmd options args st) := by
  have main : ∀ (n : Nat) (args : List String) (cmd : Command) (st : State),
      args.length ≤ n → P cmd args st (run cmd options args st) := by
    intro n
    induction n with
    | zero =>
      intro args cmd st hlen
      have : args = [] := List.length_eq_zero.mp (by omega)
      subst this
      exact hnil cmd st
    | succ n ih =>
      intro args cmd st hlen
      cases args with
      | nil => exact hnil cmd st
      | cons arg rest =>
        have hlen1 : rest.length ≤ n := by simpa using hlen
        rw [run_cons]
        by_cases hd : (HasPrefix arg "--" || HasPrefix arg "-") = true
        · rw [if_pos hd]
          cases hres : getOptionByArgument arg (st.maps cmd.Options) st.opts with
          | none => exact hstop cmd st arg rest _ (Or.inl rfl)
          | some q =>
            have hq := getOption_mem _ _ _ _ hres
            simp only
            by_cases hvq : (st.opts q).HasValue = true
            · rw [if_pos hvq]
              by_cases hc : Count arg = 1
              · rw [if_pos hc]
                by_cases hl : (SplitN2 arg).length = 2
                · simp only [if_pos hl]
                  exact hopt cmd st arg rest rest q _ _ hq ⟨[], rfl, by simp⟩
                    (Or.inr (Or.inr ⟨_, rfl, Or.inl (splitN2_second_cut arg hl)⟩))
                    (ih rest cmd _ hlen1)
                · simp only [if_neg hl]
                  exact hopt cmd st arg rest rest q _ _ hq ⟨[], rfl, by simp⟩ (Or.inl rfl)
                    (ih rest cmd _ hlen1)
              · rw [if_neg hc]
                cases rest with
                | nil =>
                  exact hopt cmd st arg [] [] q _ _ hq ⟨[], rfl, by simp⟩ (Or.inl rfl)
                    (ih [] cmd _ (by simp))
                | cons next rest2 =>
                  have hlen2 : rest2.length ≤ n := by
                    simp only [List.length_cons] at hlen1; omega
                  simp only
                  by_cases hn : (!HasPrefix next "-") = true
                  · rw [if_pos hn]
                    exact hopt cmd st arg (next :: rest2) rest2 q _ _ hq ⟨[next], rfl, by simp⟩
                      (Or.inr (Or.inr ⟨next, rfl, Or.inr (by simp)⟩)) (ih rest2 cmd _ hlen2)
                  · rw [if_neg hn]
                    exact hopt cmd st arg (next :: rest2) rest2 q _ _ hq ⟨[next], rfl, by simp⟩
                      (Or.inl rfl) (ih rest2 cmd _ hlen2)
            · rw [if_neg hvq]
              exact hopt cmd st arg rest rest q _ _ hq ⟨[], rfl, by simp⟩ (Or.inr (Or.inl rfl))
                (ih rest cmd _ hlen1)
        · rw [if_neg hd]
          cases hsubc : cmd.Commands.find? (fun c => c.Name == arg) with
          | none => exact hstop cmd st arg rest _ (Or.inr rfl)
          | some sub =>
            simp only
            have hmem : sub ∈ cmd.Commands := List.mem_of_find?_eq_some hsubc
            have hname : sub.Name = arg := by
              have := List.find?_some hsubc
              simpa using this
            exact hsub cmd st arg rest sub _ hmem hname (ih rest sub _ hlen1)
  intro args cmd st
  exact main args.length args cmd st (Nat.le_refl _)

/-! ## What a dispatch leaves unchanged -/

theorem mem_insert (reg : Registry) (k : String) (q : Ptr) (e : String × Ptr)
    (h : e ∈ reg.insert k q) : e = (k, q) ∨ e ∈ reg := by
  induction reg with
  | nil => simp [Registry.insert] at h; exact Or.inl h
  | cons a m ih =>
    unfold Registry.insert at h
    by_cases hk : (a.1 == k) = true
    · rw [if_pos hk] at h
      rcases List.mem_cons.mp h with h | h
      · exact Or.inl h
      · exact Or.inr (List.mem_cons_of_mem _ h)
    · rw [if_neg hk] at h
      rcases List.mem_cons.mp h with h | h
      · exact Or.inr (h ▸ List.mem_cons_self _ _)
      · rcases ih h with h | h
        · exact Or.inl h
        · exact Or.inr (List.mem_cons_of_mem _ h)

theorem mem_insert_unique (reg : Registry) (k : String) (q : Ptr) (e : String × Ptr)
    (hn : NamesUnique reg) (h : e ∈ reg.insert k q) : e = (k, q) ∨ (e ∈ reg ∧ e.1 ≠ k) := by
  induction reg with
  | nil => simp [Registry.insert] at h; exact Or.inl h
  | cons a m ih =>
    unfold NamesUnique at hn
    rw [List.map_cons, List.nodup_cons] at hn
    unfold Registry.insert at h
    by_cases hk : (a.1 == k) = true
    · rw [if_pos hk] at h
      have hak : a.1 = k := by simpa using hk
      rcases List.mem_cons.mp h with h | h
      · exact Or.inl h
      · refine Or.inr ⟨List.mem_cons_of_mem _ h, fun hek => hn.1 ?_⟩
        rw [hak, ← hek]
        exact List.mem_map_of_mem Prod.fst h
    · rw [if_neg hk] at h
      have hak : a.1 ≠ k := by simpa using hk
      rcases List.mem_cons.mp h with h | h
      · exact Or.inr ⟨h ▸ List.mem_cons_self _ _, h ▸ hak⟩
      · rcases ih hn.2 h with h | h
        · exact Or.inl h
        · exact Or.inr ⟨List.mem_cons_of_mem _ h.1, h.2⟩

theorem keys_insert (reg : Registry) (k : String) (q : Ptr) (x : String)
    (h : x ∈ (reg.insert k q).map Prod.fst) : x = k ∨ x ∈ reg.map Prod.fst := by
  obtain ⟨e, he, rfl⟩ := List.mem_map.mp h
  rcases mem_insert reg k q e he with h | h
  · exact Or.inl (by rw [h])
  · exact Or.inr (List.mem_map_of_mem Prod.fst h)

theorem namesUnique_insert (reg : Registry) (k : String) (q : Ptr) (hn : NamesUnique reg) :
    NamesUnique (reg.insert k q) := by
  induction reg with
  | nil => simp [Registry.insert, NamesUnique]
  | cons a m ih =>
    unfold NamesUnique at hn ⊢
    rw [List.map_cons, List.nodup_cons] at hn
    unfold Registry.insert
    by_cases hk : (a.1 == k) = true
    · rw [if_pos hk]
      have hak : a.1 = k := by simpa using hk
      rw [List.map_cons, List.nodup_cons]
      exact ⟨hak ▸ hn.1, hn.2⟩
    · rw [if_neg hk]
      have hak : a.1 ≠ k := by simpa using hk
      rw [List.map_cons, List.nodup_cons]
      refine ⟨fun hin => ?_, ih hn.2⟩
      rcases keys_insert m k q a.1 hin with h | h
      · exact hak h
      · exact hn.1 h

theorem foldl_mapInsert_set (options : MapRef) (es : List (String × Ptr)) :
    ∀ st : State,
      (NamesUnique (st.maps options) →
        NamesUnique ((es.foldl (fun s e => s.mapInsert options e.1 e.2) st).maps options)) ∧
      (∀ e ∈ (es.foldl (fun s e => s.mapInsert options e.1 e.2) st).maps options,
        e ∈ st.maps options ∨ e ∈ es) ∧
      (∀ name, (∃ p, (st.maps options).get? name = some p) →
        ∃ p, ((es.foldl (fun s e => s.mapInsert options e.1 e.2) st).maps options).get? name =
          some p) := by
  induction es with
  | nil => intro st; exact ⟨id, fun e he => Or.inl he, fun _ h => h⟩
  | cons a es ih =>
    intro st
    rw [List.foldl_cons]
    obtain ⟨h1, h2, h3⟩ := ih (st.mapInsert options a.1 a.2)
    have hmap : (st.mapInsert options a.1 a.2).maps options =
        (st.maps options).insert a.1 a.2 := by
      simp [State.mapInsert]
    refine ⟨fun hn => h1 (by rw [hmap]; exact namesUnique_insert _ _ _ hn), fun e he => ?_,
      fun name hp => h3 name ?_⟩
    · rcases h2 e he with h | h
      · rw [hmap] at h
        rcases mem_insert _ _ _ _ h with h | h
        · exact Or.inr (h ▸ List.mem_cons_self _ _)
        · exact Or.inl h
      · exact Or.inr (List.mem_cons_of_mem _ h)
    · rw [hmap, get?_insert]
      by_cases hk : a.1 = name
      · rw [if_pos hk]; exact ⟨_, rfl⟩
      · rw [if_neg hk]; exact hp

theorem migrate_set (st : State) (options sub : MapRef) :
    (NamesUnique (st.maps options) → NamesUnique ((migrate st options sub).maps options)) ∧
    (∀ e ∈ (migrate st options sub).maps options, e ∈ st.maps options ∨ e ∈ st.maps sub) ∧
    (∀ name, (∃ p, (st.maps options).get? name = some p) →
      ∃ p, ((migrate st options sub).maps options).get? name = some p) :=
  foldl_mapInsert_set options (st.maps sub) st

theorem pool_congr {st st2 : State} {options : MapRef} {cmd : Command} {e : String × Ptr}
    (hm : st2.maps = st.maps) : Pool st2 options cmd e ↔ Pool st options cmd e := by
  unfold Pool; rw [hm]

theorem pool_migrate {st : State} {options : MapRef} {cmd sub : Command} {e : String × Ptr}
    (hs : sub ∈ cmd.Commands) (h : Pool (migrate st options sub.Options) options sub e) :
    Pool st options cmd e := by
  obtain ⟨_, hm⟩ := migrate_opts st options sub.Options
  have hset : ∀ x ∈ (migrate st options sub.Options).maps options, Pool st options cmd x := by
    intro x hx
    rcases (migrate_set st options sub.Options).2.1 x hx with h | h
    · exact Or.inl h
    · exact Or.inr ⟨sub, Within.child hs (Within.self sub), h⟩
  rcases h with h | ⟨c, hc, h⟩
  · exact hset e h
  · by_cases hco : c.Options = options
    · rw [hco] at h; exact hset e h
    · rw [hm _ hco] at h
      exact Or.inr ⟨c, Within.child hs hc, h⟩

/-- What `run` leaves as it was, and where what it changes comes from. -/
theorem run_frame (options : MapRef) (args : List String) (cmd : Command) (st : State) :
    (∀ m, m ≠ options → (run cmd options args st).1.maps m = st.maps m) ∧
    (∀ p, ((run cmd options args st).1.opts p).Alias = (st.opts p).Alias ∧
      ((run cmd options args st).1.opts p).Description = (st.opts p).Description ∧
      ((run cmd options args st).1.opts p).HasValue = (st.opts p).HasValue) ∧
    (NamesUnique (st.maps options) → NamesUnique ((run cmd options args st).1.maps options)) ∧
    (∀ e ∈ (run cmd options args st).1.maps options, Pool st options cmd e) ∧
    (∀ name, (∃ p, (st.maps options).get? name = some p) →
      ∃ p, ((run cmd options args st).1.maps options).get? name = some p) ∧
    (∀ p, (∀ e, Pool st options cmd e → e.2 ≠ p) →
      (run cmd options args st).1.opts p = st.opts p) := by
  refine run_induction options
    (fun cmd _ st r =>
      (∀ m, m ≠ options → r.1.maps m = st.maps m) ∧
      (∀ p, (r.1.opts p).Alias = (st.opts p).Alias ∧
        (r.1.opts p).Description = (st.opts p).Description ∧
        (r.1.opts p).HasValue = (st.opts p).HasValue) ∧
      (NamesUnique (st.maps options) → NamesUnique (r.1.maps options)) ∧
      (∀ e ∈ r.1.maps options, Pool st options cmd e) ∧
      (∀ name, (∃ p, (st.maps options).get? name = some p) →
        ∃ p, (r.1.maps options).get? name = some p) ∧
      (∀ p, (∀ e, Pool st options cmd e → e.2 ≠ p) → r.1.opts p = st.opts p))
    ?_ ?_ ?_ ?_ args cmd st
  · intro cmd st
    have hst : (run cmd options [] st).1 = st := by
      rw [run_nil]; cases cmd.Action <;> rfl
    rw [hst]
    exact ⟨fun _ _ => rfl, fun _ => ⟨rfl, rfl, rfl⟩, id, fun e he => Or.inl he,
      fun _ h => h, fun _ _ => rfl⟩
  · intro cmd st arg rest msg _
    exact ⟨fun _ _ => rfl, fun _ => ⟨rfl, rfl, rfl⟩, id, fun e he => Or.inl he,
      fun _ h => h, fun _ _ => rfl⟩
  · intro cmd st arg rest rest2 q st2 r hq _ hst2 ih
    obtain ⟨e0, he0, hq0⟩ := hq
    have hmaps : st2.maps = st.maps := by
      rcases hst2 with rfl | rfl | ⟨v, rfl, _⟩ <;> rfl
    have hstatic : ∀ p, (st2.opts p).Alias = (st.opts p).Alias ∧
        (st2.opts p).Description = (st.opts p).Description ∧
        (st2.opts p).HasValue = (st.opts p).HasValue := by
      intro p
      rcases hst2 with rfl | rfl | ⟨v, rfl, _⟩
      · exact ⟨rfl, rfl, rfl⟩
      · by_cases hp : p = q
        · subst hp; simp [State.setFlag]
        · simp [State.setFlag, Function.update_noteq hp]
      · by_cases hp : p = q
        · subst hp; simp [State.setValue]
        · simp [State.setValue, Function.update_noteq hp]
    have hother : ∀ p, p ≠ q → st2.opts p = st.opts p := by
      intro p hp
      rcases hst2 with rfl | rfl | ⟨v, rfl, _⟩
      · rfl
      · simp [State.setFlag, Function.update_noteq hp]
      · simp [State.setValue, Function.update_noteq hp]
    obtain ⟨i1, i2, i3, i4, i5, i6⟩ := ih
    refine ⟨fun m hm => by rw [i1 m hm, hmaps], fun p => ?_, fun hn => i3 (by rw [hmaps]; exact hn),
      fun e he => (pool_congr hmaps).mp (i4 e he), fun name hp => i5 name (by rw [hmaps]; exact hp),
      fun p hp => ?_⟩
    · obtain ⟨a1, a2, a3⟩ := i2 p
      obtain ⟨b1, b2, b3⟩ := hstatic p
      exact ⟨a1.trans b1, a2.trans b2, a3.trans b3⟩
    · have hpq : p ≠ q := by
        intro e
        exact hp e0 (Or.inr ⟨cmd, Within.self cmd, he0⟩) (hq0.trans e.symm)
      rw [i6 p (fun e he => hp e ((pool_congr hmaps).mp he)), hother p hpq]
  · intro cmd st arg rest sub r hmem _ ih
    obtain ⟨ho, hm⟩ := migrate_opts st options sub.Options
    obtain ⟨s1, s2, s3⟩ := migrate_set st options sub.Options
    obtain ⟨i1, i2, i3, i4, i5, i6⟩ := ih
    refine ⟨fun m hmo => by rw [i1 m hmo, hm m hmo], fun p => by rw [← ho]; exact i2 p,
      fun hn => i3 (s1 hn), fun e he => pool_migrate hmem (i4 e he),
      fun name hp => i5 name (s3 name hp), fun p hp => ?_⟩
    rw [i6 p (fun e he => hp e (pool_migrate hmem he)), ho]

/-! ## The registry invariant -/

theorem setDefaultConfigOption_store (cmd : Command) (h : Alloc) :
    (cmd.SetDefaultConfigOption h).store.opts =
      Function.update h.store.opts h.freePtr ⟨OptConfigAlias, "", OptConfigDesc, true, false⟩ ∧
    (cmd.SetDefaultConfigOption h).store.maps =
      Function.update h.store.maps cmd.Options
        ((h.store.maps cmd.Options).insert OptConfigName h.freePtr) := by
  simp [Command.SetDefaultConfigOption, Alloc.newOption, State.mapInsert]

theorem setDefaultConfigOption_invariant (cmd : Command) (h : Alloc)
    (hfresh : ∀ m, ∀ e ∈ h.store.maps m, e.2 < h.freePtr) :
    (∀ m, NamesUnique (h.store.maps m) →
      NamesUnique ((cmd.SetDefaultConfigOption h).store.maps m)) ∧
    (∀ m, m ≠ cmd.Options → AliasesUnique (h.store.maps m) h.store.opts →
      AliasesUnique ((cmd.SetDefaultConfigOption h).store.maps m)
        (cmd.SetDefaultConfigOption h).store.opts) ∧
    (RegistryInvariant (h.store.maps cmd.Options) h.store.opts →
      (∀ e ∈ h.store.maps cmd.Options, e.1 ≠ OptConfigName →
        (h.store.opts e.2).Alias ≠ OptConfigAlias) →
      RegistryInvariant ((cmd.SetDefaultConfigOption h).store.maps cmd.Options)
        (cmd.SetDefaultConfigOption h).store.opts) := by
  obtain ⟨ho, hm⟩ := setDefaultConfigOption_store cmd h
  have hold : ∀ m, ∀ e ∈ h.store.maps m,
      (cmd.SetDefaultConfigOption h).store.opts e.2 = h.store.opts e.2 := by
    intro m e he
    rw [ho, Function.update_noteq (Nat.ne_of_lt (hfresh m e he))]
  have hnew : (cmd.SetDefaultConfigOption h).store.opts h.freePtr =
      ⟨OptConfigAlias, "", OptConfigDesc, true, false⟩ := by
    rw [ho, Function.update_same]
  have hnames : ∀ m, NamesUnique (h.store.maps m) →
      NamesUnique ((cmd.SetDefaultConfigOption h).store.maps m) := by
    intro m hn
    rw [hm]
    by_cases hmc : m = cmd.Options
    · subst hmc
      rw [Function.update_same]
      exact namesUnique_insert _ _ _ hn
    · rw [Function.update_noteq hmc]; exact hn
  refine ⟨hnames, ?_, ?_⟩
  · intro m hmc ha e1 he1 e2 he2 hne heq
    rw [hm, Function.update_noteq hmc] at he1 he2
    rw [hold m e1 he1] at hne heq
    rw [hold m e2 he2] at heq
    exact ha e1 he1 e2 he2 hne heq
  · intro hinv hc
    refine ⟨hnames _ hinv.1, ?_⟩
    intro e1 he1 e2 he2 hne heq
    rw [hm, Function.update_same] at he1 he2
    rcases mem_insert_unique _ _ _ _ hinv.1 he1 with h1 | ⟨h1, k1⟩ <;>
      rcases mem_insert_unique _ _ _ _ hinv.1 he2 with h2 | ⟨h2, k2⟩
    · rw [h1, h2]
    · exfalso
      rw [h1] at heq
      simp only at heq
      rw [hnew, hold _ e2 h2] at heq
      exact hc e2 h2 k2 heq.symm
    · exfalso
      rw [h2] at heq
      simp only at heq
      rw [hnew, hold _ e1 h1] at heq
      exact hc e1 h1 k1 heq
    · rw [hold _ e1 h1] at hne heq
      rw [hold _ e2 h2] at heq
      exact hinv.2 e1 h1 e2 h2 hne heq

theorem run_invariant (options : MapRef) (args : List String) (cmd : Command) (st : State) :
    (∀ m, NamesUnique (st.maps m) → NamesUnique ((run cmd options args st).1.maps m)) ∧
    (∀ m, m ≠ options → AliasesUnique (st.maps m) st.opts →
      AliasesUnique ((run cmd options args st).1.maps m) (run cmd options args st).1.opts) ∧
    ((∀ e1 e2, Pool st options cmd e1 → Pool st options cmd e2 →
        (st.opts e1.2).Alias ≠ "" → (st.opts e1.2).Alias = (st.opts e2.2).Alias →
        e1.2 = e2.2) →
      AliasesUnique ((run cmd options args st).1.maps options)
        (run cmd options args st).1.opts) := by
  obtain ⟨f1, f2, f3, f4, _, _⟩ := run_frame options args cmd st
  refine ⟨fun m hn => ?_, fun m hm ha => ?_, fun hg => ?_⟩
  · by_cases hm : m = options
    · subst hm; exact f3 hn
    · rw [f1 m hm]; exact hn
  · intro e1 he1 e2 he2 hne heq
    rw [f1 m hm] at he1 he2
    rw [(f2 e1.2).1] at hne heq
    rw [(f2 e2.2).1] at heq
    exact ha e1 he1 e2 he2 hne heq
  · intro e1 he1 e2 he2 hne heq
    rw [(f2 e1.2).1] at hne heq
    rw [(f2 e2.2).1] at heq
    exact hg e1 e2 (f4 e1 he1) (f4 e2 he2) hne heq

/-- C21 (counterexample).  The invariant holds of the root registry `help`/`h`,
`version`/`v`, `color`/`c` and fails after `SetDefaultConfigOption`, which adds
`config` with the alias `c`; it holds of the registries of a root (`help`/`h`,
`version`/`v`) and of its child `serve` (`host`/`h`) and fails of the root
registry after the dispatch of `serve`, which writes `host` into it. -/
theorem C21_registry_invariant_not_preserved :
    RegistryInvariant (colorAlloc.store.maps colorRoot.Options) colorAlloc.store.opts ∧
    ¬ RegistryInvariant ((colorRoot.SetDefaultConfigOption colorAlloc).store.maps
        colorRoot.Options) (colorRoot.SetDefaultConfigOption colorAlloc).store.opts ∧
    RegistryInvariant (hostState.maps hostRoot.Options) hostState.opts ∧
    RegistryInvariant (hostState.maps hostServe.Options) hostState.opts ∧
    ¬ RegistryInvariant ((run hostRoot hostRoot.Options ["serve"] hostState).1.maps
        hostRoot.Options) (run hostRoot hostRoot.Options ["serve"] hostState).1.opts := by
  unfold RegistryInvariant NamesUnique AliasesUnique
  decide

/-- C21 (amended).  The name part of the invariant is preserved, in every
registry, by `SetDefaultConfigOption` and by every dispatch.  The alias part is
preserved by `SetDefaultConfigOption` in every other registry, and in the
node's registry when no option registered under another name has the alias
`c`; it is preserved by a dispatch in every registry other than the option set,
and in the option set when the entries of the set and of the registries of the
tree share no non-empty alias between different records. -/
theorem C21_registry_invariant_preserved_amended (node : Command) (h : Alloc)
    (cmd : Command) (options : MapRef) (args : List String) (st : State)
    (hfresh : ∀ m, ∀ e ∈ h.store.maps m, e.2 < h.freePtr) :
    ((∀ m, NamesUnique (h.store.maps m) →
        NamesUnique ((node.SetDefaultConfigOption h).store.maps m)) ∧
      (∀ m, m ≠ node.Options → AliasesUnique (h.store.maps m) h.store.opts →
        AliasesUnique ((node.SetDefaultConfigOption h).store.maps m)
          (node.SetDefaultConfigOption h).store.opts) ∧
      (RegistryInvariant (h.store.maps node.Options) h.store.opts →
        (∀ e ∈ h.store.maps node.Options, e.1 ≠ OptConfigName →
          (h.store.opts e.2).Alias ≠ OptConfigAlias) →
        RegistryInvariant ((node.SetDefaultConfigOption h).store.maps node.Options)
          (node.SetDefaultConfigOption h).store.opts)) ∧
    ((∀ m, NamesUnique (st.maps m) → NamesUnique ((run cmd options args st).1.maps m)) ∧
      (∀ m, m ≠ options → AliasesUnique (st.maps m) st.opts →
        AliasesUnique ((run cmd options args st).1.maps m) (run cmd options args st).1.opts) ∧
      ((∀ e1 e2, Pool st options cmd e1 → Pool st options cmd e2 →
          (st.opts e1.2).Alias ≠ "" → (st.opts e1.2).Alias = (st.opts e2.2).Alias →
          e1.2 = e2.2) →
        AliasesUnique ((run cmd options args st).1.maps options)
          (run cmd options args st).1.opts)) :=
  ⟨setDefaultConfigOption_invariant node h hfresh, run_invariant options args cmd st⟩

theorem newCli_fresh (a : Option ActionId) (base : String) :
    ∀ m, ∀ e ∈ (NewCli a base emptyAlloc).2.store.maps m,
      e.2 < (NewCli a base emptyAlloc).2.freePtr := by
  intro m e he
  have hmaps : (NewCli a base emptyAlloc).2.store.maps m =
      if m = 0 then [(OptHelpName, 0), (OptVersionName, 1)] else [] := by
    by_cases hm : m = 0
    · subst hm; rfl
    · rw [if_neg hm]
      simp [NewCli, Alloc.makeMap, Alloc.newOption, State.mapInsert, emptyAlloc,
        Function.update_noteq hm]
  have hfree : (NewCli a base emptyAlloc).2.freePtr = 2 := rfl
  rw [hmaps] at he
  rw [hfree]
  by_cases hm : m = 0
  · rw [if_pos hm] at he
    simp only [List.mem_cons, List.mem_singleton, List.not_mem_nil, or_false] at he
    rcases he with rfl | rfl
    · exact Nat.lt_succ_of_lt (Nat.lt_succ_self 0)
    · exact Nat.lt_succ_self 1
  · rw [if_neg hm] at he
    cases he

/-- Witness of C21: `SetDefaultConfigOption` on the root built by `NewCli`, and
the dispatch of `push origin` in the tree of `example/main.go`. -/
theorem C21_registry_invariant_preserved_amended_witness :
    ((∀ m, NamesUnique ((NewCli (some 0) "app" emptyAlloc).2.store.maps m) →
        NamesUnique ((colorRoot.SetDefaultConfigOption
          (NewCli (some 0) "app" emptyAlloc).2).store.maps m)) ∧
      (∀ m, m ≠ colorRoot.Options →
        AliasesUnique ((NewCli (some 0) "app" emptyAlloc).2.store.maps m)
          (NewCli (some 0) "app" emptyAlloc).2.store.opts →
        AliasesUnique ((colorRoot.SetDefaultConfigOption
            (NewCli (some 0) "app" emptyAlloc).2).store.maps m)
          (colorRoot.SetDefaultConfigOption (NewCli (some 0) "app" emptyAlloc).2).store.opts) ∧
      (RegistryInvariant ((NewCli (some 0) "app" emptyAlloc).2.store.maps colorRoot.Options)
          (NewCli (some 0) "app" emptyAlloc).2.store.opts →
        (∀ e ∈ (NewCli (some 0) "app" emptyAlloc).2.store.maps colorRoot.Options,
          e.1 ≠ OptConfigName →
          ((NewCli (some 0) "app" emptyAlloc).2.store.opts e.2).Alias ≠ OptConfigAlias) →
        RegistryInvariant ((colorRoot.SetDefaultConfigOption
            (NewCli (some 0) "app" emptyAlloc).2).store.maps colorRoot.Options)
          (colorRoot.SetDefaultConfigOption
            (NewCli (some 0) "app" emptyAlloc).2).store.opts)) ∧
    ((∀ m, NamesUnique (exampleState.maps m) →
        NamesUnique ((run exampleRoot 0 ["push", "origin"] exampleState).1.maps m)) ∧
      (∀ m, m ≠ 0 → AliasesUnique (exampleState.maps m) exampleState.opts →
        AliasesUnique ((run exampleRoot 0 ["push", "origin"] exampleState).1.maps m)
          (run exampleRoot 0 ["push", "origin"] exampleState).1.opts) ∧
      ((∀ e1 e2, Pool exampleState 0 exampleRoot e1 → Pool exampleState 0 exampleRoot e2 →
          (exampleState.opts e1.2).Alias ≠ "" →
          (exampleState.opts e1.2).Alias = (exampleState.opts e2.2).Alias → e1.2 = e2.2) →
        AliasesUnique ((run exampleRoot 0 ["push", "origin"] exampleState).1.maps 0)
          (run exampleRoot 0 ["push", "origin"] exampleState).1.opts)) :=
  C21_registry_invariant_preserved_amended colorRoot (NewCli (some 0) "app" emptyAlloc).2
    exampleRoot 0 ["push", "origin"] exampleState (newCli_fresh (some 0) "app")

/-! ## The frame of a dispatch -/

theorem pool_root (st : State) (root : Command) (e : String × Ptr) :
    Pool st root.Options root e ↔ ∃ c, Within root c ∧ e ∈ st.maps c.Options := by
  unfold Pool
  constructor
  · rintro (h | h)
    · exact ⟨root, Within.self root, h⟩
    · exact h
  · exact Or.inr

theorem cliRun_store (cli : Cli) (args : List String) (st : State) (r : State × List Event)
    (h : cli.Run args st = some r) :
    r.1 = st ∨ r.1 = (run cli.Command cli.Command.Options args st).1 := by
  unfold Cli.Run at h
  by_cases hl : args.length = 0
  · rw [if_pos hl] at h
    cases ha : cli.Command.Action with
    | none => rw [ha] at h; cases h
    | some a =>
      rw [ha] at h
      simp only [Option.some.injEq] at h
      exact Or.inl (by rw [← h])
  · rw [if_neg hl] at h
    by_cases hh : isHelpFlagSet args = true
    · rw [if_pos hh] at h
      simp only [Option.some.injEq] at h
      exact Or.inl (by rw [← h])
    · rw [if_neg hh] at h
      simp only [Option.some.injEq] at h
      exact Or.inr (by rw [← h])

/-- C23 (counterexample).  In the tree of `example/main.go`, `Cli.Run` on
`push origin` adds the entry `url` of the `origin` command to the root's own
registry. -/
theorem C23_dispatch_adds_entries_to_root_registry :
    exampleState.maps exampleCli.Command.Options =
      [("help", 0), ("version", 1), ("config", 2)] ∧
    (exampleCli.Run ["push", "origin"] exampleState).map
        (fun r => r.1.maps exampleCli.Command.Options) =
      some [("help", 0), ("version", 1), ("config", 2), ("url", 4)] := by
  decide

/-- C23 (amended).  A dispatch changes nothing but (a) the Value and IsFlagSet
of records held by the option set or registered on a node of the tree, and
(b) the option set it was handed, under `Cli.Run` the root's own registry: the
entries found in it afterwards are entries of the set or of a registry of the
tree, and every name it bound is still bound.  Every other registry is as it
was, and no record's Alias, Description or HasValue changes.  The same holds of
`Cli.Run` with the root's registry as the set. -/
theorem C23_dispatch_frame_amended (cmd : Command) (options : MapRef) (cli : Cli)
    (args : List String) (st : State) :
    ((∀ m, m ≠ options → (run cmd options args st).1.maps m = st.maps m) ∧
      (∀ p, ((run cmd options args st).1.opts p).Alias = (st.opts p).Alias ∧
        ((run cmd options args st).1.opts p).Description = (st.opts p).Description ∧
        ((run cmd options args st).1.opts p).HasValue = (st.opts p).HasValue) ∧
      (∀ p, (∀ e, Pool st options cmd e → e.2 ≠ p) →
        (run cmd options args st).1.opts p = st.opts p) ∧
      (∀ e ∈ (run cmd options args st).1.maps options, Pool st options cmd e) ∧
      (∀ name, (∃ p, (st.maps options).get? name = some p) →
        ∃ p, ((run cmd options args st).1.maps options).get? name = some p)) ∧
    (∀ r, cli.Run args st = some r →
      (∀ m, m ≠ cli.Command.Options → r.1.maps m = st.maps m) ∧
      (∀ p, (r.1.opts p).Alias = (st.opts p).Alias ∧
        (r.1.opts p).Description = (st.opts p).Description ∧
        (r.1.opts p).HasValue = (st.opts p).HasValue) ∧
      (∀ p, (∀ c, Within cli.Command c → ∀ e ∈ st.maps c.Options, e.2 ≠ p) →
        r.1.opts p = st.opts p) ∧
      (∀ e ∈ r.1.maps cli.Command.Options,
        ∃ c, Within cli.Command c ∧ e ∈ st.maps c.Options) ∧
      (∀ name, (∃ p, (st.maps cli.Command.Options).get? name = some p) →
        ∃ p, (r.1.maps cli.Command.Options).get? name = some p)) := by
  constructor
  · obtain ⟨f1, f2, _, f4, f5, f6⟩ := run_frame options args cmd st
    exact ⟨f1, f2, f6, f4, f5⟩
  · intro r hr
    rcases cliRun_store cli args st r hr with e | e
    · rw [e]
      exact ⟨fun _ _ => rfl, fun _ => ⟨rfl, rfl, rfl⟩, fun _ _ => rfl,
        fun e he => ⟨cli.Command, Within.self _, he⟩, fun _ h => h⟩
    · obtain ⟨f1, f2, _, f4, f5, f6⟩ := run_frame cli.Command.Options args cli.Command st
      rw [e]
      refine ⟨f1, f2, fun p hp => f6 p (fun e he => ?_), fun e he => ?_, f5⟩
      · obtain ⟨c, hc, hec⟩ := (pool_root st cli.Command e).mp he
        exact hp c hc e hec
      · exact (pool_root st cli.Command e).mp (f4 e he)

/-! ## Option state across dispatches -/

theorem run_monotone (options : MapRef) (args : List String) (cmd : Command) (st : State) :
    (∀ p, (st.opts p).IsFlagSet = true → ((run cmd options args st).1.opts p).IsFlagSet = true) ∧
    (∀ p, ((run cmd options args st).1.opts p).Value = (st.opts p).Value ∨
      ∃ arg ∈ args, ((run cmd options args st).1.opts p).Value = arg ∨
        ∃ pre : String, '=' ∉ pre.data ∧
          arg = pre ++ "=" ++ ((run cmd options args st).1.opts p).Value) ∧
    (∀ a m, Event.call a m ∈ (run cmd options args st).2 → m = options) := by
  refine run_induction options
    (fun _ args st r =>
      (∀ p, (st.opts p).IsFlagSet = true → (r.1.opts p).IsFlagSet = true) ∧
      (∀ p, (r.1.opts p).Value = (st.opts p).Value ∨
        ∃ arg ∈ args, (r.1.opts p).Value = arg ∨
          ∃ pre : String, '=' ∉ pre.data ∧ arg = pre ++ "=" ++ (r.1.opts p).Value) ∧
      (∀ a m, Event.call a m ∈ r.2 → m = options))
    ?_ ?_ ?_ ?_ args cmd st
  · intro cmd st
    rw [run_nil]
    cases cmd.Action with
    | none => exact ⟨fun _ h => h, fun _ => Or.inl rfl, fun a m h => by simp [showUsage] at h⟩
    | some a2 =>
      refine ⟨fun _ h => h, fun _ => Or.inl rfl, fun a m h => ?_⟩
      simp only [List.mem_singleton, Event.call.injEq] at h
      exact h.2
  · intro cmd st arg rest msg _
    exact ⟨fun _ h => h, fun _ => Or.inl rfl, fun a m h => by simp [showUsage] at h⟩
  · intro cmd st arg rest rest2 q st2 r _ hskip hst2 ih
    obtain ⟨skipped, hrest, _⟩ := hskip
    obtain ⟨i1, i2, i3⟩ := ih
    have hmem2 : ∀ x ∈ rest2, x ∈ arg :: rest := by
      intro x hx
      rw [hrest]
      exact List.mem_cons_of_mem _ (List.mem_append_right _ hx)
    refine ⟨fun p hp => i1 p ?_, fun p => ?_, i3⟩
    · rcases hst2 with rfl | rfl | ⟨v, rfl, _⟩
      · exact hp
      · by_cases hpq : p = q
        · subst hpq; simp [State.setFlag]
        · simpa [State.setFlag, Function.update_noteq hpq] using hp
      · by_cases hpq : p = q
        · subst hpq; simpa [State.setValue] using hp
        · simpa [State.setValue, Function.update_noteq hpq] using hp
    · rcases i2 p with h | ⟨x, hx, hsuf⟩
      · rw [h]
        rcases hst2 with rfl | rfl | ⟨v, rfl, hv⟩
        · exact Or.inl rfl
        · by_cases hpq : p = q
          · subst hpq; simp [State.setFlag]
          · simp [State.setFlag, Function.update_noteq hpq]
        · by_cases hpq : p = q
          · subst hpq
            refine Or.inr ?_
            have hval : ((st.setValue p v).opts p).Value = v := by simp [State.setValue]
            rw [hval]
            rcases hv with hv | hv
            · exact ⟨arg, List.mem_cons_self _ _, Or.inr hv⟩
            · exact ⟨v, List.mem_cons_of_mem _ hv, Or.inl rfl⟩
          · simp [State.setValue, Function.update_noteq hpq]
      · exact Or.inr ⟨x, hmem2 x hx, hsuf⟩
  · intro cmd st arg rest sub r _ _ ih
    obtain ⟨ho, _⟩ := migrate_opts st options sub.Options
    obtain ⟨i1, i2, i3⟩ := ih
    rw [ho] at i1 i2
    refine ⟨i1, fun p => ?_, i3⟩
    rcases i2 p with h | ⟨x, hx, hsuf⟩
    · exact Or.inl h
    · exact Or.inr ⟨x, List.mem_cons_of_mem _ hx, hsuf⟩

theorem foldl_mapInsert_keep (options : MapRef) (name : String) (p : Ptr)
    (es : List (String × Ptr)) :
    ∀ st : State, (st.maps options).get? name = some p → (∀ e ∈ es, e.1 = name → e.2 = p) →
      ((es.foldl (fun s e => s.mapInsert options e.1 e.2) st).maps options).get? name =
        some p := by
  induction es with
  | nil => intro st h _; exact h
  | cons a es ih =>
    intro st h hes
    rw [List.foldl_cons]
    refine ih _ ?_ (fun e he => hes e (List.mem_cons_of_mem _ he))
    have hmap : (st.mapInsert options a.1 a.2).maps options =
        (st.maps options).insert a.1 a.2 := by
      simp [State.mapInsert]
    rw [hmap, get?_insert]
    by_cases hk : a.1 = name
    · rw [if_pos hk, hes a (List.mem_cons_self _ _) hk]
    · rw [if_neg hk]; exact h

theorem run_keeps_binding (options : MapRef) (name : String) (p : Ptr) (args : List String)
    (cmd : Command) (st : State) :
    (st.maps options).get? name = some p →
    (∀ c, Below cmd c → ∀ e ∈ st.maps c.Options, e.1 = name → e.2 = p) →
    ((run cmd options args st).1.maps options).get? name = some p := by
  refine run_induction options
    (fun cmd _ st r =>
      (st.maps options).get? name = some p →
      (∀ c, Below cmd c → ∀ e ∈ st.maps c.Options, e.1 = name → e.2 = p) →
      (r.1.maps options).get? name = some p)
    ?_ ?_ ?_ ?_ args cmd st
  · intro cmd st h _
    rw [run_nil]
    cases cmd.Action <;> exact h
  · intro cmd st arg rest msg _ h _
    exact h
  · intro cmd st arg rest rest2 q st2 r _ _ hst2 ih h hB
    have hmaps : st2.maps = st.maps := by
      rcases hst2 with rfl | rfl | ⟨v, rfl, _⟩ <;> rfl
    exact ih (by rw [hmaps]; exact h) (by rw [hmaps]; exact hB)
  · intro cmd st arg rest sub r hmem _ ih h hB
    obtain ⟨_, hm⟩ := migrate_opts st options sub.Options
    have hsubB := hB sub ⟨sub, hmem, Within.self sub⟩
    refine ih (foldl_mapInsert_keep options name p _ st h hsubB) ?_
    intro c hc e he hk
    by_cases hco : c.Options = options
    · rw [hco] at he
      rcases (migrate_set st options sub.Options).2.1 e he with h1 | h1
      · have := hB c (below_of_below_child hmem hc)
        rw [hco] at this
        exact this e h1 hk
      · exact hsubB e h1 hk
    · rw [hm _ hco] at he
      exact hB c (below_of_below_child hmem hc) e he hk

/-- C24 (counterexample).  The first dispatch, `--x`, sets the parent's flag
`x`; the second, `sub`, does not mention it and invokes the child's action with
a set in which `x` is the child's own record, IsFlagSet false: the flag that
was set is no entry of the set, although its record still has IsFlagSet true. -/
theorem C24_second_dispatch_need_not_pass_the_flag :
    ((run shadowRoot 0 ["--x"] shadowState).1.opts 0).IsFlagSet = true ∧
    (run shadowRoot 0 ["sub"] (run shadowRoot 0 ["--x"] shadowState).1).2 =
      [Event.call 1 0] ∧
    ((run shadowRoot 0 ["sub"] (run shadowRoot 0 ["--x"] shadowState).1).1.maps 0).get? "x" =
      some 1 ∧
    ((run shadowRoot 0 ["sub"] (run shadowRoot 0 ["--x"] shadowState).1).1.opts 1).IsFlagSet =
      false ∧
    (∀ e ∈ (run shadowRoot 0 ["sub"] (run shadowRoot 0 ["--x"] shadowState).1).1.maps 0,
      e.2 ≠ 0) ∧
    ((run shadowRoot 0 ["sub"] (run shadowRoot 0 ["--x"] shadowState).1).1.opts 0).IsFlagSet =
      true := by
  decide

/-- C24 (amended).  A dispatch never resets option state.  For every record
of the store, bound in a registry or not: if its IsFlagSet is true before the
dispatch it is true after it; its Value afterwards is its Value before, or a
token of the vector, or the text after the first `=` of a token; and a second
dispatch on any vector leaves a flag that is set after the first one set.  For
a record that the option set holds under `name` after the first dispatch, no
node below the root registering another record under `name`: every action the
second dispatch invokes receives that option set, with the record under
`name`, and the record has IsFlagSet true when it had after the first
dispatch. -/
theorem C24_dispatch_never_resets_amended (cmd : Command) (options : MapRef)
    (args args2 : List String) (st : State) :
    (∀ p, (st.opts p).IsFlagSet = true →
      ((run cmd options args st).1.opts p).IsFlagSet = true) ∧
    (∀ p, ((run cmd options args st).1.opts p).Value = (st.opts p).Value ∨
      ∃ arg ∈ args, ((run cmd options args st).1.opts p).Value = arg ∨
        ∃ pre : String, '=' ∉ pre.data ∧
          arg = pre ++ "=" ++ ((run cmd options args st).1.opts p).Value) ∧
    (∀ p, ((run cmd options args st).1.opts p).IsFlagSet = true →
      ((run cmd options args2 (run cmd options args st).1).1.opts p).IsFlagSet = true) ∧
    (∀ p name, ((run cmd options args st).1.maps options).get? name = some p →
      (∀ c, Below cmd c →
        ∀ e ∈ (run cmd options args st).1.maps c.Options, e.1 = name → e.2 = p) →
      ∀ a m, Event.call a m ∈ (run cmd options args2 (run cmd options args st).1).2 →
        m = options ∧
        ((run cmd options args2 (run cmd options args st).1).1.maps m).get? name = some p ∧
        (((run cmd options args st).1.opts p).IsFlagSet = true →
          ((run cmd options args2 (run cmd options args st).1).1.opts p).IsFlagSet =
            true)) := by
  obtain ⟨m1, m2, _⟩ := run_monotone options args cmd st
  obtain ⟨n1, _, n3⟩ := run_monotone options args2 cmd (run cmd options args st).1
  refine ⟨m1, m2, n1, fun p name hname hfree a m hcall => ?_⟩
  have hm := n3 a m hcall
  subst hm
  exact ⟨rfl, run_keeps_binding m name p args2 cmd _ hname hfree, n1 p⟩

/-- Witness of C24 in the tree of `example/main.go`.  The first dispatch,
`--config=a.json list -l`, gives `config` (record 2) the Value `a.json`, the
text after the `=` of its token, and sets `local` (record 3); the second,
`push origin`, leaves `local` set and invokes `pushOringFunc` (callback 2) on
the root's map, which holds `local`, IsFlagSet true; `url` (record 4), which
the root's map does not hold after the first dispatch, keeps its Value. -/
theorem C24_dispatch_never_resets_amended_witness :
    ((run exampleRoot 0 ["--config=a.json", "list", "-l"] exampleState).1.opts 2).Value =
      "a.json" ∧
    (((run exampleRoot 0 ["--config=a.json", "list", "-l"] exampleState).1.opts 2).Value =
        (exampleState.opts 2).Value ∨
      ∃ arg ∈ ["--config=a.json", "list", "-l"],
        ((run exampleRoot 0 ["--config=a.json", "list", "-l"] exampleState).1.opts 2).Value =
          arg ∨
        ∃ pre : String, '=' ∉ pre.data ∧ arg = pre ++ "=" ++
          ((run exampleRoot 0 ["--config=a.json", "list", "-l"] exampleState).1.opts 2).Value) ∧
    (((run exampleRoot 0 ["--config=a.json", "list", "-l"] exampleState).1.opts 4).Value =
        (exampleState.opts 4).Value ∨
      ∃ arg ∈ ["--config=a.json", "list", "-l"],
        ((run exampleRoot 0 ["--config=a.json", "list", "-l"] exampleState).1.opts 4).Value =
          arg ∨
        ∃ pre : String, '=' ∉ pre.data ∧ arg = pre ++ "=" ++
          ((run exampleRoot 0 ["--config=a.json", "list", "-l"] exampleState).1.opts 4).Value) ∧
    ((run exampleRoot 0 ["--config=a.json", "list", "-l"] exampleState).1.maps 0).get? "url" =
      none ∧
    ((run exampleRoot 0 ["--config=a.json", "list", "-l"] exampleState).1.opts 3).IsFlagSet =
      true ∧
    ((run exampleRoot 0 ["push", "origin"]
      (run exampleRoot 0 ["--config=a.json", "list", "-l"] exampleState).1).1.opts 3).IsFlagSet =
      true ∧
    Event.call 2 0 ∈ (run exampleRoot 0 ["push", "origin"]
      (run exampleRoot 0 ["--config=a.json", "list", "-l"] exampleState).1).2 ∧
    ((run exampleRoot 0 ["push", "origin"]
      (run exampleRoot 0 ["--config=a.json", "list", "-l"] exampleState).1).1.maps 0).get?
        "local" = some 3 :=
  have h := C24_dispatch_never_resets_amended exampleRoot 0
    ["--config=a.json", "list", "-l"] ["push", "origin"] exampleState
  ⟨by decide, h.2.1 2, h.2.1 4, by decide, by decide, h.2.2.1 3 (by decide), by decide,
    (h.2.2.2 3 "local" (by decide)
      (fun c hc => by
        obtain ⟨sub, hsub, hw⟩ := hc
        have hsub2 : sub = exampleList ∨ sub = examplePush := by
          simpa [exampleRoot, Command.Commands] using hsub
        rcases hsub2 with rfl | rfl
        · cases hw with
          | self => decide
          | child hm _ => exact absurd hm (by simp [exampleList, Command.Commands])
        · cases hw with
          | self => decide
          | @child _ s2 _ hm hw2 =>
            have hs2 : s2 = exampleOrigin := by
              simpa [examplePush, Command.Commands] using hm
            subst hs2
            cases hw2 with
            | self => decide
            | child hm2 _ => exact absurd hm2 (by simp [exampleOrigin, Command.Commands]))
      2 0 (by decide)).2.1⟩

/-! ## Termination and the single terminal effect -/

theorem run_terminal (options : MapRef) (args : List String) (cmd : Command) (st : State) :
    ∃ path : List Command,
      List.Chain (fun p c => c ∈ p.Commands) cmd path ∧ path.length ≤ args.length ∧
      TerminalEffect (path.getLastD cmd) options (run cmd options args st).1
        (run cmd options args st).2 := by
  refine run_induction options
    (fun cmd args _ r =>
      ∃ path : List Command,
        List.Chain (fun p c => c ∈ p.Commands) cmd path ∧ path.length ≤ args.length ∧
        TerminalEffect (path.getLastD cmd) options r.1 r.2)
    ?_ ?_ ?_ ?_ args cmd st
  · intro cmd st
    refine ⟨[], List.Chain.nil, Nat.le_refl _, ?_⟩
    rw [run_nil]
    cases ha : cmd.Action with
    | none => exact Or.inr (Or.inl ⟨ha, rfl⟩)
    | some a => exact Or.inl ⟨a, ha, rfl⟩
  · intro cmd st arg rest msg hmsg
    refine ⟨[], List.Chain.nil, Nat.zero_le _, ?_⟩
    rcases hmsg with rfl | rfl
    · exact Or.inr (Or.inr (Or.inl ⟨arg, rfl⟩))
    · exact Or.inr (Or.inr (Or.inr ⟨arg, rfl⟩))
  · intro cmd st arg rest rest2 q st2 r _ hskip _ ih
    obtain ⟨skipped, hrest, _⟩ := hskip
    obtain ⟨path, hc, hl, ht⟩ := ih
    refine ⟨path, hc, ?_, ht⟩
    rw [hrest, List.length_cons, List.length_append]
    omega
  · intro cmd st arg rest sub r hmem _ ih
    obtain ⟨path, hc, hl, ht⟩ := ih
    refine ⟨sub :: path, List.Chain.cons hmem hc, ?_, ?_⟩
    · simp only [List.length_cons]; omega
    · rw [List.getLastD_cons]; exact ht

/-- C25.  `run` is total, and every call of it ends in one terminal effect at
a node reached from `cmd` through at most as many children as the vector has
tokens (each recursive call is on a strictly shorter vector): either the call
of that node's action on the option set, and nothing else, or that node's
usage, printed once, alone or after one failure line, and no call.  An action
is invoked exactly when nothing is printed. -/
theorem C25_run_ends_in_exactly_one_terminal_effect (cmd : Command) (options : MapRef)
    (args : List String) (st : State) :
    (∃ path : List Command,
      List.Chain (fun p c => c ∈ p.Commands) cmd path ∧ path.length ≤ args.length ∧
      TerminalEffect (path.getLastD cmd) options (run cmd options args st).1
        (run cmd options args st).2) ∧
    ((∃ action, (run cmd options args st).2 = [Event.call action options]) ↔
      ¬ ∃ s, Event.print s ∈ (run cmd options args st).2) ∧
    ((∃ s, Event.print s ∈ (run cmd options args st).2) ↔
      ¬ ∃ action m, Event.call action m ∈ (run cmd options args st).2) := by
  have h := run_terminal options args cmd st
  refine ⟨h, ?_, ?_⟩
  · obtain ⟨path, _, _, ht⟩ := h
    rcases ht with ⟨a, _, he⟩ | ⟨_, he⟩ | ⟨tok, he⟩ | ⟨tok, he⟩ <;> rw [he] <;> simp
  · obtain ⟨path, _, _, ht⟩ := h
    rcases ht with ⟨a, _, he⟩ | ⟨_, he⟩ | ⟨tok, he⟩ | ⟨tok, he⟩ <;> rw [he] <;> simp

/-! ## The usage line and the iteration order -/

theorem usageText_groups (cmd : Command) (st : State) :
    usageText cmd st =
      "Usage: " ++ cmd.Name ++
        ((st.maps cmd.Options).map (fun e => usageOption e.1 (st.opts e.2))).foldr
          (fun s t => s ++ t) "" ++
        (if cmd.Commands.length = 0 then ""
         else " [" ++ "|".intercalate
            ((cmd.Commands.map Command.Name).filter (fun n => n != "")) ++ "]") := by
  unfold usageText
  simp only [foldl_append_groups]
  have hmap : (cmd.Commands.filter (fun c => c.Name != "")).map (fun c => c.Name) =
      (cmd.Commands.map Command.Name).filter (fun n => n != "") := by
    rw [List.filter_map]; rfl
  rw [hmap]
  by_cases hl : cmd.Commands.length = 0
  · have : ¬ cmd.Commands.length > 0 := by omega
    simp [hl]
  · have : cmd.Commands.length > 0 := by omega
    simp only [if_neg hl, if_pos this, String.append_assoc]

/-- C22 (counterexample).  The root of `example/main.go` rendered with its
registry iterated from the first, from the second and from the third
registered option on, the three orders in which a Go `range` walks a map of
three entries: the records and the entries are the same, the three lines differ
from one another. -/
theorem C22_usage_depends_on_iteration_order :
    Reordered exampleState (exampleRotated 1) ∧
    Reordered exampleState (exampleRotated 2) ∧
    (exampleRotated 1).maps exampleRoot.Options =
      [(OptVersionName, 1), (OptConfigName, 2), (OptHelpName, 0)] ∧
    (exampleRotated 2).maps exampleRoot.Options =
      [(OptConfigName, 2), (OptHelpName, 0), (OptVersionName, 1)] ∧
    showUsage exampleRoot exampleState =
      [Event.print "Usage: example [--help|-h] [--version|-v] [--config|-c] [list|push]\n"] ∧
    showUsage exampleRoot (exampleRotated 1) =
      [Event.print "Usage: example [--version|-v] [--config|-c] [--help|-h] [list|push]\n"] ∧
    showUsage exampleRoot (exampleRotated 2) =
      [Event.print "Usage: example [--config|-c] [--help|-h] [--version|-v] [list|push]\n"] ∧
    showUsage exampleRoot (exampleRotated 1) ≠ showUsage exampleRoot exampleState ∧
    showUsage exampleRoot (exampleRotated 2) ≠ showUsage exampleRoot exampleState ∧
    showUsage exampleRoot (exampleRotated 2) ≠ showUsage exampleRoot (exampleRotated 1) := by
  refine ⟨⟨rfl, fun m => List.rotate_perm _ _⟩, ⟨rfl, fun m => List.rotate_perm _ _⟩,
    by decide, by decide, by decide, by decide, by decide, by decide, by decide, by decide⟩

/-- C22 (amended).  Two renderings of a node with no mutation in between, the
registry being iterated in any two orders.  Each line is `Usage: `, the name,
the bracket group of every registered option, one per registry entry in the
order in which that rendering iterates the registry, and the child group; the
bracket groups of the second rendering are those of the first in another
order.  The two lines are byte-identical when the order of iteration is the
same, and when the node has at most one registered option. -/
theorem C22_usage_deterministic_up_to_group_order (cmd : Command) (st st2 : State)
    (h : Reordered st st2) :
    showUsage cmd st = [Event.print ("Usage: " ++ cmd.Name ++
        ((st.maps cmd.Options).map (fun e => usageOption e.1 (st.opts e.2))).foldr
          (fun s t => s ++ t) "" ++
        (if cmd.Commands.length = 0 then ""
         else " [" ++ "|".intercalate
            ((cmd.Commands.map Command.Name).filter (fun n => n != "")) ++ "]") ++ "\n")] ∧
    showUsage cmd st2 = [Event.print ("Usage: " ++ cmd.Name ++
        ((st2.maps cmd.Options).map (fun e => usageOption e.1 (st2.opts e.2))).foldr
          (fun s t => s ++ t) "" ++
        (if cmd.Commands.length = 0 then ""
         else " [" ++ "|".intercalate
            ((cmd.Commands.map Command.Name).filter (fun n => n != "")) ++ "]") ++ "\n")] ∧
    ((st2.maps cmd.Options).map (fun e => usageOption e.1 (st2.opts e.2))).Perm
      ((st.maps cmd.Options).map (fun e => usageOption e.1 (st.opts e.2))) ∧
    (st2.maps cmd.Options = st.maps cmd.Options →
      showUsage cmd st2 = showUsage cmd st) ∧
    ((st.maps cmd.Options).length ≤ 1 → showUsage cmd st2 = showUsage cmd st) := by
  obtain ⟨ho, hm⟩ := h
  have hsame : st2.maps cmd.Options = st.maps cmd.Options →
      showUsage cmd st2 = showUsage cmd st := by
    intro e
    unfold showUsage
    rw [usageText_groups, usageText_groups, e, ho]
  refine ⟨?_, ?_, ?_, hsame, fun hl => hsame ?_⟩
  · unfold showUsage; rw [usageText_groups]
  · unfold showUsage; rw [usageText_groups]
  · rw [ho]; exact (hm cmd.Options).map _
  · have hp := hm cmd.Options
    rcases hreg : st.maps cmd.Options with _ | ⟨a, _ | ⟨b, l⟩⟩
    · rw [hreg] at hp; exact List.Perm.eq_nil hp
    · rw [hreg] at hp; exact List.perm_singleton.mp hp
    · rw [hreg] at hl; simp at hl

/-- Witness of C22 on the root of `example/main.go`, which registers three
options, rendered with the registry iterated from the first and from the
second registered option on. -/
theorem C22_usage_deterministic_up_to_group_order_witness :
    Reordered exampleState (exampleRotated 1) ∧
    showUsage exampleRoot exampleState = [Event.print ("Usage: " ++ exampleRoot.Name ++
        ((exampleState.maps exampleRoot.Options).map (fun e => usageOption e.1 (exampleState.opts e.2))).foldr
          (fun s t => s ++ t) "" ++
        (if exampleRoot.Commands.length = 0 then ""
         else " [" ++ "|".intercalate
            ((exampleRoot.Commands.map Command.Name).filter (fun n => n != "")) ++ "]") ++ "\n")] ∧
    showUsage exampleRoot (exampleRotated 1) = [Event.print ("Usage: " ++ exampleRoot.Name ++
        (((exampleRotated 1).maps exampleRoot.Options).map (fun e => usageOption e.1 ((exampleRotated 1).opts e.2))).foldr
          (fun s t => s ++ t) "" ++
        (if exampleRoot.Commands.length = 0 then ""
         else " [" ++ "|".intercalate
            ((exampleRoot.Commands.map Command.Name).filter (fun n => n != "")) ++ "]") ++ "\n")] ∧
    (((exampleRotated 1).maps exampleRoot.Options).map (fun e => usageOption e.1 ((exampleRotated 1).opts e.2))).Perm
      ((exampleState.maps exampleRoot.Options).map (fun e => usageOption e.1 (exampleState.opts e.2))) ∧
    ((exampleRotated 1).maps exampleRoot.Options = exampleState.maps exampleRoot.Options →
      showUsage exampleRoot (exampleRotated 1) = showUsage exampleRoot exampleState) ∧
    ((exampleState.maps exampleRoot.Options).length ≤ 1 → showUsage exampleRoot (exampleRotated 1) = showUsage exampleRoot exampleState) :=
  ⟨⟨rfl, fun _ => List.rotate_perm _ _⟩,
    C22_usage_deterministic_up_to_group_order exampleRoot exampleState (exampleRotated 1)
      ⟨rfl, fun _ => List.rotate_perm _ _⟩⟩

end GoCli
